import Mathlib

/-!
Verification of the forktrace process-lineage model, tracer wait handling,
tracee memory I/O and diagram layout engine, via a shallow embedding of the
C++ sources (src/tracer/process.cpp, tracer.cpp, ptrace.cpp, diagram.cpp)
into Lean.  Machine integers are modelled as Nat/Int, with the 64-bit
wraparound of size_t made explicit where it matters.  C++ exceptions are
modelled with Except; a C++ assert or an out-of-bounds vector access is
modelled as a distinguished error outcome.
-/

namespace Forktrace

/-- Wraparound modulus of the C size_t type (64-bit). -/
def SIZE_MOD : Nat := 2 ^ 64

/-- Kernel-internal errno: system call interrupted, will be restarted
(visible only to ptracers).  From process.cpp / the system headers. -/
def ERESTARTSYS : Int := 512

/-- errno EINVAL. -/
def EINVAL : Int := 22

/-- si_code value CLD_EXITED. -/
def CLD_EXITED : Int := 1

/-- si_code value CLD_KILLED. -/
def CLD_KILLED : Int := 2

/-- si_code value CLD_DUMPED. -/
def CLD_DUMPED : Int := 3

/-- A source location attached to events (struct SourceLocation, event.hpp). -/
structure SourceLocation where
  file : String
  func : String
  line : Nat
deriving Repr, DecidableEq

/-- One exec attempt: struct ExecCall of event.hpp ({file, errcode}). -/
structure ExecCall where
  file : String
  errcode : Int
deriving Repr, DecidableEq

/-- The payload of a WaitEvent (event.hpp): waited-id (same semantics as the
pid argument of waitpid), error code (0 = pending/success), nohang flag. -/
structure WaitData where
  waitedId : Int
  error : Int
  nohang : Bool
deriving Repr, DecidableEq

/-- The shared descriptor of a kill pair (struct KillInfo, event.hpp).  The
C++ version holds references to the source and dest Process objects; process
identity is modelled by pid. -/
structure KillInfo where
  sourcePid : Int
  destPid : Int
  signal : Int
  toThread : Bool
deriving Repr, DecidableEq

/-- The tagged event variants of event.hpp.  Cross-process references
(ForkEvent::child, ReapEvent::child) are modelled by the pid of the
referenced process.  A ReapEvent carries the WaitEvent it superseded. -/
inductive EventKind where
  | fork (childPid : Int)
  | wait (w : WaitData)
  | reap (w : WaitData) (childPid : Int)
  | exec (calls : List ExecCall) (args : List String)
  | raiseSig (killedId : Int) (signal : Int) (toThread : Bool)
  | kill (info : KillInfo) (sender : Bool)
  | sig (origin : Int) (signal : Int) (killed : Bool)
  | exited (status : Int)
deriving Repr, DecidableEq

/-- An event: the base-class Event of event.hpp carries an optional source
location; the variant payload is the EventKind. -/
structure Event where
  loc : Option SourceLocation
  kind : EventKind
deriving Repr, DecidableEq

/-- Process lifecycle state (enum Process::State, process.hpp). -/
inductive PState where
  | alive
  | zombie
  | reaped
  | orphaned
deriving Repr, DecidableEq

/-- A process node (class Process, process.hpp): pid, lifecycle state,
killed-by-signal flag, initial name/args, the pending source-location slot,
and the ordered event log. -/
structure Process where
  pid : Int
  state : PState
  killed : Bool
  initialName : String
  initialArgs : List String
  location : Option SourceLocation
  events : List Event
deriving Repr, DecidableEq

/-- Error outcomes of the process-model mutators.  processTree models a
thrown ProcessTreeError, badTrace a thrown BadTraceError, assertFailed a
failed C assert, and outOfBoundsRead an out-of-bounds vector access (which
in the C++ is undefined behaviour, not an exception). -/
inductive TraceError where
  | processTree (msg : String)
  | badTrace (pid : Int) (msg : String)
  | assertFailed (msg : String)
  | outOfBoundsRead (index : Nat)
deriving Repr, DecidableEq

/-- Process::dead(): any state other than ALIVE. -/
def Process.dead (p : Process) : Bool :=
  p.state ≠ PState.alive

/-- Process::add_event: appends an event to the log, but only while the
process is ALIVE (else a ProcessTreeError is thrown).  When consumeLocation
is set and a pending source location exists, it is moved into the event. -/
def Process.add_event (p : Process) (e : Event) (consumeLocation : Bool) :
    Except TraceError Process :=
  if p.state = PState.alive then
    if p.location.isSome ∧ consumeLocation then
      Except.ok { p with
        events := p.events ++ [{ e with loc := p.location }],
        location := none }
    else
      Except.ok { p with events := p.events ++ [e] }
  else
    Except.error (TraceError.processTree "add_event called when state is not ALIVE")

/-- Process::notify_waiting (process.cpp): if the very last event is a
WaitEvent that failed with ERESTARTSYS, the two waits are merged (the error
is cleared back to 0) provided the parameters are identical, else a
ProcessTreeError is thrown; otherwise a fresh pending WaitEvent is appended
(consuming the source location). -/
def Process.notify_waiting (p : Process) (waitedId : Int) (nohang : Bool) :
    Except TraceError Process :=
  match p.events.getLast? with
  | some e =>
    match e.kind with
    | EventKind.wait w =>
      if w.error = ERESTARTSYS then
        if w.waitedId = waitedId ∧ w.nohang = nohang then
          Except.ok { p with
            events := p.events.dropLast ++
              [{ e with kind := EventKind.wait { w with error := 0 } }] }
        else
          Except.error (TraceError.processTree
            "notify_waiting called after interrupted wait but with different parameters")
      else
        p.add_event ⟨none, EventKind.wait ⟨waitedId, 0, nohang⟩⟩ true
    | _ => p.add_event ⟨none, EventKind.wait ⟨waitedId, 0, nohang⟩⟩ true
  | none => p.add_event ⟨none, EventKind.wait ⟨waitedId, 0, nohang⟩⟩ true

/-- Result of the backwards WaitEvent search in notify_failed_wait and
notify_reaped.  found returns the index together with the WaitEvent's
location and payload; outOfBounds i records that the loop accessed
_events[i] with i beyond the vector's size. -/
inductive SearchResult where
  | found (i : Nat) (loc : Option SourceLocation) (w : WaitData)
  | outOfBounds (i : Nat)
deriving Repr, DecidableEq

/-- The backwards-search loop body shared by notify_failed_wait and
notify_reaped: `for (size_t i = _events.size() - 1; i >= 0; --i)`.  The
loop counter is a size_t, so `i >= 0` always holds; when `i` is 0 the
decrement wraps to 2^64 - 1 and the following vector access is out of
bounds (vectors never hold 2^64 elements).  The recursion is structural on
the counter. -/
def search_wait_back (events : List Event) : Nat → SearchResult
  | 0 =>
    match events.get? 0 with
    | some e =>
      match e.kind with
      | EventKind.wait w => SearchResult.found 0 e.loc w
      | _ => SearchResult.outOfBounds (SIZE_MOD - 1)
    | none => SearchResult.outOfBounds 0
  | i + 1 =>
    match events.get? (i + 1) with
    | some e =>
      match e.kind with
      | EventKind.wait w => SearchResult.found (i + 1) e.loc w
      | _ => search_wait_back events i
    | none => SearchResult.outOfBounds (i + 1)

/-- The loop's starting index `_events.size() - 1` computed in size_t
arithmetic, i.e. (n + 2^64 - 1) % 2^64 for a vector size n (which is less
than 2^64): the empty vector wraps to 2^64 - 1, otherwise it is n - 1. -/
def start_index (n : Nat) : Nat := if n = 0 then SIZE_MOD - 1 else n - 1

/-- Process::notify_failed_wait (process.cpp): search backwards for the
WaitEvent that started the failed wait and store the error into it in
place.  The WaitEvent found must still be pending (error == 0). -/
def Process.notify_failed_wait (p : Process) (error : Int) :
    Except TraceError Process :=
  match search_wait_back p.events (start_index p.events.length) with
  | SearchResult.found i loc w =>
    if w.error = 0 then
      Except.ok { p with
        events := p.events.set i ⟨loc, EventKind.wait { w with error := error }⟩ }
    else
      Except.error (TraceError.processTree
        "notify_failed_wait: the previous WaitEvent already failed")
  | SearchResult.outOfBounds i => Except.error (TraceError.outOfBoundsRead i)

/-- Process::notify_reaped (process.cpp): the child must be a zombie and
becomes REAPED; the waiter's pending WaitEvent (found by the same backwards
search) is replaced in place by a ReapEvent that absorbs the WaitEvent and
holds the child.  Returns (updated waiter, updated child). -/
def Process.notify_reaped (p : Process) (child : Process) :
    Except TraceError (Process × Process) :=
  if child.state = PState.zombie then
    match search_wait_back p.events (start_index p.events.length) with
    | SearchResult.found i loc w =>
      if w.error = 0 then
        Except.ok
          ({ p with events := p.events.set i ⟨loc, EventKind.reap w child.pid⟩ },
           { child with state := PState.reaped })
      else
        Except.error (TraceError.processTree
          "notify_reaped called when the last WaitEvent failed")
    | SearchResult.outOfBounds i => Except.error (TraceError.outOfBoundsRead i)
  else
    Except.error (TraceError.processTree "notify_reaped called on non-zombie process")

/-- Process::notify_forked: record a ForkEvent (consumes the location). -/
def Process.notify_forked (p : Process) (childPid : Int) :
    Except TraceError Process :=
  p.add_event ⟨none, EventKind.fork childPid⟩ true

/-- util.cpp get_base_name: the suffix of the path after the last '/'
(the whole path when it contains no '/'). -/
def get_base_name (path : String) : String :=
  String.mk ((path.data.reverse.takeWhile (fun c => c ≠ '/')).reverse)

/-- ExecEvent::succeeded(): the most recent exec call has errcode 0.  The
C++ asserts the call list is nonempty; event lists are nonempty by
construction, and an empty list is mapped to false here. -/
def execSucceeded (calls : List ExecCall) : Bool :=
  match calls.getLast? with
  | some c => c.errcode = 0
  | none => false

/-- ExecEvent::call().file: the file of the most recent exec call. -/
def execCallFile (calls : List ExecCall) : String :=
  match calls.getLast? with
  | some c => c.file
  | none => ""

/-- Process::notify_exec (process.cpp): a new ExecEvent is appended unless
the last event is a failed ExecEvent with the same argv and the same
basename(file), in which case the new call is merged onto its attempts
list. -/
def Process.notify_exec (p : Process) (file : String) (args : List String)
    (errcode : Int) : Except TraceError Process :=
  match p.events.getLast? with
  | none => p.add_event ⟨none, EventKind.exec [⟨file, errcode⟩] args⟩ true
  | some e =>
    match e.kind with
    | EventKind.exec calls eargs =>
      if execSucceeded calls ∨ eargs ≠ args then
        p.add_event ⟨none, EventKind.exec [⟨file, errcode⟩] args⟩ true
      else if get_base_name file ≠ get_base_name (execCallFile calls) ∨ eargs ≠ args then
        p.add_event ⟨none, EventKind.exec [⟨file, errcode⟩] args⟩ true
      else
        Except.ok { p with
          events := p.events.dropLast ++
            [{ e with kind := EventKind.exec (calls ++ [⟨file, errcode⟩]) eargs }] }
    | _ => p.add_event ⟨none, EventKind.exec [⟨file, errcode⟩] args⟩ true

/-- Macro WIFEXITED(status): (status & 0x7f) == 0. -/
def WIFEXITED (status : Nat) : Bool := status % 128 = 0

/-- Macro WTERMSIG(status): status & 0x7f. -/
def WTERMSIG (status : Nat) : Nat := status % 128

/-- Macro WEXITSTATUS(status): (status >> 8) & 0xff. -/
def WEXITSTATUS (status : Nat) : Nat := status / 256 % 256

/-- Macro WIFSIGNALED(status): ((signed char)(((status & 0x7f) + 1) >> 1)) > 0. -/
def WIFSIGNALED (status : Nat) : Bool := (status % 128 + 1) / 2 > 0

/-- Process::notify_ended (process.cpp): on WIFEXITED append an ExitEvent
and become a zombie; on WIFSIGNALED either promote a matching trailing
SignalEvent in place to killed=true or append a killing SignalEvent, set
the killed flag, and become a zombie.  The C++ asserts WIFEXITED or
WIFSIGNALED on entry. -/
def Process.notify_ended (p : Process) (status : Nat) :
    Except TraceError Process :=
  if WIFEXITED status then
    match p.add_event ⟨none, EventKind.exited (WEXITSTATUS status)⟩ false with
    | Except.ok p' => Except.ok { p' with state := PState.zombie }
    | Except.error e => Except.error e
  else if WIFSIGNALED status then
    match p.events.getLast? with
    | some e =>
      match e.kind with
      | EventKind.sig origin s _ =>
        if s = (WTERMSIG status : Int) then
          Except.ok { p with
            killed := true,
            state := PState.zombie,
            events := p.events.dropLast ++ [{ e with kind := EventKind.sig origin s true }] }
        else
          match p.add_event ⟨none, EventKind.sig (-1) (WTERMSIG status) true⟩ false with
          | Except.ok p' =>
            Except.ok { p' with state := PState.zombie, killed := true }
          | Except.error err => Except.error err
      | _ =>
        match p.add_event ⟨none, EventKind.sig (-1) (WTERMSIG status) true⟩ false with
        | Except.ok p' => Except.ok { p' with state := PState.zombie, killed := true }
        | Except.error err => Except.error err
    | none =>
      match p.add_event ⟨none, EventKind.sig (-1) (WTERMSIG status) true⟩ false with
      | Except.ok p' => Except.ok { p' with state := PState.zombie, killed := true }
      | Except.error err => Except.error err
  else
    Except.error (TraceError.assertFailed "notify_ended: neither WIFEXITED nor WIFSIGNALED")

/-- Process::notify_signaled: append a SignalEvent with killed=false. -/
def Process.notify_signaled (p : Process) (sender : Int) (signal : Int) :
    Except TraceError Process :=
  p.add_event ⟨none, EventKind.sig sender signal false⟩ false

/-- Process::notify_sent_signal (static, process.cpp).  When dest is a
distinct tracked process whose pid matches killedId, a kill pair is
produced: the source gets a sender-side KillEvent through add_event
(consuming its location); the receiver-side KillEvent is pushed directly
onto the dest's log (eschewing add_event), and if the dest is already dead
it is swapped with the trailing death event so it precedes it.  Otherwise a
single RaiseEvent is recorded on the source.  Returns (source', dest'). -/
def Process.notify_sent_signal (killedId : Int) (source : Process)
    (dest : Option Process) (signal : Int) (toThread : Bool) :
    Except TraceError (Process × Option Process) :=
  match dest with
  | some d =>
    if d.pid ≠ source.pid ∧ d.pid = killedId then
      let info : KillInfo := ⟨source.pid, d.pid, signal, toThread⟩
      match source.add_event ⟨none, EventKind.kill info true⟩ true with
      | Except.error e => Except.error e
      | Except.ok source' =>
        if d.dead then
          match d.events.getLast? with
          | none => Except.error (TraceError.assertFailed "dest is dead but has no events")
          | some deathEvent =>
            Except.ok (source', some { d with
              events := d.events.dropLast ++
                [⟨none, EventKind.kill info false⟩, deathEvent] })
        else
          Except.ok (source', some { d with
            events := d.events ++ [⟨none, EventKind.kill info false⟩] })
    else
      match source.add_event ⟨none, EventKind.raiseSig killedId signal toThread⟩ true with
      | Except.error e => Except.error e
      | Except.ok source' => Except.ok (source', dest)
  | none =>
    match source.add_event ⟨none, EventKind.raiseSig killedId signal toThread⟩ true with
    | Except.error e => Except.error e
    | Except.ok source' => Except.ok (source', none)

/-- Process::notify_orphaned: ZOMBIE becomes ORPHANED. -/
def Process.notify_orphaned (p : Process) : Except TraceError Process :=
  if p.state = PState.zombie then
    Except.ok { p with state := PState.orphaned }
  else
    Except.error (TraceError.processTree
      "notify_orphaned called on a process that was not a ZOMBIE")

/-- An enumeration of the process-model mutators, used to state properties
quantified over every mutator.  For notify_reaped and notify_sent_signal,
which touch two processes, the process the mutation is applied to plays the
waiter/source role or the dest role as indicated. -/
inductive Mutation where
  | waiting (waitedId : Int) (nohang : Bool)
  | failedWait (error : Int)
  | reapedChild (child : Process)
  | forked (childPid : Int)
  | exec (file : String) (args : List String) (errcode : Int)
  | ended (status : Nat)
  | signaled (sender : Int) (signal : Int)
  | sentSignalSource (killedId : Int) (dest : Option Process) (signal : Int) (toThread : Bool)
  | sentSignalDest (killedId : Int) (source : Process) (signal : Int) (toThread : Bool)
  | orphaned
deriving Repr

/-- Apply a mutator to a process, returning the resulting version of that
process (the effects on the other process involved, if any, are dropped). -/
def applyMutation (p : Process) (m : Mutation) : Except TraceError Process :=
  match m with
  | Mutation.waiting waitedId nohang => p.notify_waiting waitedId nohang
  | Mutation.failedWait error => p.notify_failed_wait error
  | Mutation.reapedChild child =>
    match p.notify_reaped child with
    | Except.ok r => Except.ok r.fst
    | Except.error e => Except.error e
  | Mutation.forked childPid => p.notify_forked childPid
  | Mutation.exec file args errcode => p.notify_exec file args errcode
  | Mutation.ended status => p.notify_ended status
  | Mutation.signaled sender signal => p.notify_signaled sender signal
  | Mutation.sentSignalSource killedId dest signal toThread =>
    match Process.notify_sent_signal killedId p dest signal toThread with
    | Except.ok r => Except.ok r.fst
    | Except.error e => Except.error e
  | Mutation.sentSignalDest killedId source signal toThread =>
    match Process.notify_sent_signal killedId source (some p) signal toThread with
    | Except.ok r =>
      match r.snd with
      | some d => Except.ok d
      | none => Except.ok p
    | Except.error e => Except.error e
  | Mutation.orphaned => p.notify_orphaned

/-! ### Tracer driver: tracees and the wait blocking call (tracer.cpp) -/

/-- Tracee state (tracer.hpp): RUNNING, STOPPED or DEAD. -/
inductive TraceeState where
  | running
  | stopped
  | dead
deriving Repr, DecidableEq

/-- An entry of the tracer's pid → Tracee map (only the fields used by the
wait-call logic are carried: pid, state and the process node). -/
structure Tracee where
  pid : Int
  state : TraceeState
  process : Process
deriving Repr, DecidableEq

/-- Look up a tracee by pid (tracer's `_tracees.find(chosen)`). -/
def find_tracee (ts : List Tracee) (pid : Int) : Option Tracee :=
  match ts with
  | [] => none
  | t :: rest => if t.pid = pid then some t else find_tracee rest pid

/-- Erase the entry with the given pid (tracer's `_tracees.erase(it)`;
map keys are unique, so erasing the first match is the map semantics). -/
def erase_tracee (ts : List Tracee) (pid : Int) : List Tracee :=
  match ts with
  | [] => []
  | t :: rest => if t.pid = pid then rest else t :: erase_tracee rest pid

/-- WaitCall::on_success (tracer.cpp): the reaped pid must be a tracee in
the map and it must be DEAD (else a BadTraceError is thrown); then the
waiter's process is notified of the reap and the child's entry is erased
from the map.  Returns (waiter process, reaped child process, new map). -/
def WaitCall.on_success (tracees : List Tracee) (tracee : Tracee) (chosen : Int) :
    Except TraceError (Process × Process × List Tracee) :=
  match find_tracee tracees chosen with
  | none =>
    Except.error (TraceError.badTrace tracee.pid "Tracee reaped an unknown child.")
  | some it =>
    if it.state = TraceeState.dead then
      match tracee.process.notify_reaped it.process with
      | Except.ok r => Except.ok (r.fst, r.snd, erase_tracee tracees chosen)
      | Except.error e => Except.error e
    else
      Except.error (TraceError.badTrace tracee.pid
        "Tracee reaped a child that was not dead.")

/-- idtype_t value P_ALL. -/
def P_ALL : Nat := 0

/-- idtype_t value P_PID. -/
def P_PID : Nat := 1

/-- idtype_t value P_PGID. -/
def P_PGID : Nat := 2

/-- std::numeric_limits of pid_t (int32), the max value. -/
def PID_T_MAX : Int := 2 ^ 31 - 1

/-- The implicit conversion from id_t (uint32) to pid_t (int32) used by
`return id;` and `-(pid_t)id` in to_wait4_id. -/
def to_pid_t (id : Nat) : Int :=
  if id % 2 ^ 32 < 2 ^ 31 then ((id % 2 ^ 32 : Nat) : Int)
  else ((id % 2 ^ 32 : Nat) : Int) - 2 ^ 32

/-- to_wait4_id (tracer.cpp; identically toWait4ID in tracee.cpp): convert
waitid's (idtype, id) to the wait4 pid encoding.  Unknown idtype yields the
clearly-wrong sentinel numeric_limits of pid_t max (the wait call itself
then fails with EINVAL). -/
def to_wait4_id (type : Nat) (id : Nat) : Int :=
  if type = P_ALL then -1
  else if type = P_PID then to_pid_t id
  else if type = P_PGID then -(to_pid_t id)
  else PID_T_MAX

/-- The possible ways a wait blocking call finalises with respect to the
process tree: a reap of a chosen pid, a failed wait recorded with an errno,
or no process-tree effect. -/
inductive WaitOutcome where
  | reap (chosen : Int)
  | fail (err : Int)
  | nothing
deriving Repr, DecidableEq

/-- WaitIDCall::finalise (tracer.cpp), reduced to its decision: the call
reaped iff retval == 0, si_pid was set nonzero and si_code is one of
CLD_EXITED/CLD_KILLED/CLD_DUMPED; a negative retval records the errno via
on_failure; anything else does nothing. -/
def waitid_finalise_outcome (retval : Int) (siPid : Int) (siCode : Int) :
    WaitOutcome :=
  if retval = 0 ∧ siPid ≠ 0 ∧
      (siCode = CLD_EXITED ∨ siCode = CLD_KILLED ∨ siCode = CLD_DUMPED) then
    WaitOutcome.reap siPid
  else if retval < 0 then
    WaitOutcome.fail (-retval)
  else
    WaitOutcome.nothing

/-- Wait4Call::finalise (tracer.cpp), reduced to its decision: reaped iff
the return value is a positive pid and the status says exited or signaled;
a negative retval records the errno; anything else does nothing. -/
def wait4_finalise_outcome (retval : Int) (status : Nat) : WaitOutcome :=
  if 0 < retval ∧ (WIFEXITED status ∨ WIFSIGNALED status) then
    WaitOutcome.reap retval
  else if retval < 0 then
    WaitOutcome.fail (-retval)
  else
    WaitOutcome.nothing

/-! ### Tracee memory I/O (ptrace.cpp)

Tracee memory and the destination buffer are modelled as byte maps
(address → byte).  PTRACE_PEEKDATA reads a machine word, i.e. the 8 bytes
at the given address; the embedding works at the byte level, which is
word-for-word what the C code's word stores and trailing memcpy do.  The
embedding takes the success path of every ptrace call (no ESRCH and no
EFAULT/EIO), matching the claim's premise that the copy returned true. -/

/-- WORD_SIZE on x86_64. -/
def WORD_SIZE : Nat := 8

/-- Macro ALIGNED_ROUND_DOWN(x): x & ~(WORD_SIZE - 1). -/
def ALIGNED_ROUND_DOWN (x : Nat) : Nat := x - x % WORD_SIZE

/-- Macro ALIGNED_ROUND_UP(x). -/
def ALIGNED_ROUND_UP (x : Nat) : Nat :=
  if x % WORD_SIZE ≠ 0 then ALIGNED_ROUND_DOWN x + WORD_SIZE else x

/-- Write `count` bytes taken from tracee memory at `srcOff` into the
buffer at offset `off` (this is both what a full word store and the
trailing memcpy of a peeked word do, expressed on bytes). -/
def writeBytes (dest : Nat → Nat) (off : Nat) (mem : Nat → Nat)
    (srcOff : Nat) (count : Nat) : Nat → Nat :=
  fun a => if off ≤ a ∧ a < off + count then mem (srcOff + (a - off)) else dest a

/-- The loop of copy_from_tracee (ptrace.cpp): peek the word at
src + WORD_SIZE*i; if i + 1 >= numWords, break out and memcpy the
`len % WORD_SIZE` leftover bytes of that word; otherwise store the full
word into the destination and continue.  The first argument of the
recursion is `numWords - i` (the break test `i + 1 >= numWords` is
`remaining <= 1`), so the recursion is structural. -/
def copy_from_tracee_loop (mem : Nat → Nat) (src : Nat) (lenmod : Nat) :
    Nat → Nat → (Nat → Nat) → (Nat → Nat)
  | 0, i, dest => writeBytes dest (WORD_SIZE * i) mem (src + WORD_SIZE * i) lenmod
  | 1, i, dest => writeBytes dest (WORD_SIZE * i) mem (src + WORD_SIZE * i) lenmod
  | r + 2, i, dest =>
    copy_from_tracee_loop mem src lenmod (r + 1) (i + 1)
      (writeBytes dest (WORD_SIZE * i) mem (src + WORD_SIZE * i) WORD_SIZE)

/-- copy_from_tracee (ptrace.cpp), success path: copy `len` bytes of the
tracee's memory starting at `src` into the destination buffer `dest0`
(whose bytes are indexed from 0).  numWords = ALIGNED_ROUND_UP(len) /
WORD_SIZE; the result is the final contents of the destination buffer. -/
def copy_from_tracee (mem : Nat → Nat) (src : Nat) (dest0 : Nat → Nat)
    (len : Nat) : Nat → Nat :=
  copy_from_tracee_loop mem src (len % WORD_SIZE)
    (ALIGNED_ROUND_UP len / WORD_SIZE) 0 dest0

/-! ### The diagram renderer's Drawer (diagram.cpp)

The Drawer's cursor state and the operations the drawing pass performs on
it.  Window writes only colour the character grid; the cursor / x-extent /
truncated bookkeeping is everything the truncation claim is about, so the
grid itself is not carried. -/

/-- The starting column of the first lane (constexpr LSHIFT, diagram.cpp). -/
def LSHIFT : Nat := 1

/-- The Drawer's mutable state (class Drawer, diagram.cpp): lane width,
window width (fixed by Drawer::start), per-line x-extent, cursor, and the
sticky truncated flag.  All of x, xExtent and the widths are size_t. -/
structure Drawer where
  laneWidth : Nat
  width : Nat
  xExtent : Nat
  x : Nat
  y : Nat
  truncated : Bool
deriving Repr, DecidableEq

/-- Drawer state after the constructor and Drawer::start(numLanes,
numLines): width = numLanes * laneWidth + LSHIFT. -/
def Drawer.mk0 (laneWidth numLanes : Nat) : Drawer :=
  { laneWidth := laneWidth,
    width := numLanes * laneWidth + LSHIFT,
    xExtent := 0, x := 0, y := 0, truncated := false }

/-- The operations rendering performs on the Drawer.  drawChar and
drawString are the IEventRenderer operations used by events; startLane,
startLine, backtrack and drawLink are the Drawer's own operations. -/
inductive DrawOp where
  | startLane (lane : Nat)
  | startLine (line : Nat)
  | backtrack (steps : Nat)
  | drawChar (count : Nat)
  | drawString (len : Nat)
  | drawLink
deriving Repr, DecidableEq

/-- One Drawer operation (diagram.cpp).  startLane: move the cursor to the
lane start, flag truncation if that is left of the x-extent.  startLine:
reset cursor and x-extent.  backtrack: move the cursor left (size_t
subtraction wraps), flag truncation if left of the x-extent.  drawChar: if
the cursor is at or past the window width flag truncation and draw nothing,
else advance cursor and x-extent by count.  drawString: if the string would
run past the window width flag truncation and clip it, advance cursor and
x-extent by the (possibly clipped) length.  drawLink: pad to the end of the
current lane without touching the x-extent or the flag. -/
def Drawer.step (d : Drawer) (op : DrawOp) : Drawer :=
  match op with
  | DrawOp.startLane lane =>
    let x' := lane * d.laneWidth + LSHIFT
    { d with x := x', truncated := d.truncated || decide (x' < d.xExtent) }
  | DrawOp.startLine line =>
    { d with xExtent := 0, x := 0, y := line * 2 }
  | DrawOp.backtrack steps =>
    let x' := (d.x + (SIZE_MOD - steps % SIZE_MOD)) % SIZE_MOD
    { d with x := x', truncated := d.truncated || decide (x' < d.xExtent) }
  | DrawOp.drawChar count =>
    if d.x ≥ d.width then
      { d with truncated := true }
    else
      { d with x := d.x + count, xExtent := d.x + count }
  | DrawOp.drawString len =>
    if d.x + len > d.width then
      let len' := len - (d.x + len - d.width)
      { d with truncated := true, x := d.x + len', xExtent := d.x + len' }
    else
      { d with x := d.x + len, xExtent := d.x + len }
  | DrawOp.drawLink =>
    let laneStart := (d.x - LSHIFT) / d.laneWidth * d.laneWidth + LSHIFT
    let padding := laneStart + d.laneWidth - d.x
    { d with x := d.x + padding }

/-- Run a sequence of Drawer operations. -/
def Drawer.run (d : Drawer) (ops : List DrawOp) : Drawer :=
  match ops with
  | [] => d
  | op :: rest => (d.step op).run rest

/-- The claim's trigger: the operation moves the cursor to a lane start, or
backtracks it, left of the x-extent already reached on the line. -/
def leftCross (d : Drawer) (op : DrawOp) : Bool :=
  match op with
  | DrawOp.startLane lane => decide (lane * d.laneWidth + LSHIFT < d.xExtent)
  | DrawOp.backtrack steps =>
    decide ((d.x + (SIZE_MOD - steps % SIZE_MOD)) % SIZE_MOD < d.xExtent)
  | _ => false

/-- The other way the flag gets set: a draw_char starting at or beyond the
window's right edge, or a draw_string running past it. -/
def rightOverflow (d : Drawer) (op : DrawOp) : Bool :=
  match op with
  | DrawOp.drawChar _ => decide (d.x ≥ d.width)
  | DrawOp.drawString len => decide (d.x + len > d.width)
  | _ => false

/-- Does any operation along the run trigger the given condition? -/
def anyAlongRun (f : Drawer → DrawOp → Bool) (d : Drawer) (ops : List DrawOp) : Bool :=
  match ops with
  | [] => false
  | op :: rest => f d op || anyAlongRun f (d.step op) rest

/-! ### Diagram layout (diagram.cpp)

The diagram builder walks a frozen process tree.  Processes are stored in
an arena and identified by index (the C++ identifies them by Process
pointer); each event is projected to exactly the data the layout code
reads: its variant, its link target (ForkEvent::child, ReapEvent::child,
KillEvent::linked_path) and the filter inputs (ExecEvent::succeeded,
SignalEvent::killed, KillEvent::sender).  A failed C++ assert or an
out-of-range vector/map access aborts the build (Option none). -/

/-- Arena index identifying a process in the diagram input. -/
abbrev ProcId := Nat

/-- A process's event as seen by the layout code. -/
inductive DEvent where
  | fork (child : ProcId)
  | wait
  | reap (child : ProcId)
  | exec (succeeded : Bool)
  | raiseSig
  | kill (partner : ProcId) (sender : Bool)
  | sig (killed : Bool)
  | exited
deriving Repr, DecidableEq

/-- A process as seen by the layout code: Process::reaped() and the event
list. -/
structure DProc where
  reaped : Bool
  events : List DEvent
deriving Repr, DecidableEq

/-- The process tree handed to the diagram. -/
abbrev Arena := List DProc

/-- The display filter bitmask (Diagram::Options), as four flags. -/
structure DOptions where
  showExecs : Bool
  showFailedExecs : Bool
  showNonFatalSignals : Bool
  showSignalSends : Bool
deriving Repr, DecidableEq

/-- Diagram::Path: {startLine, endLine, lane, killPartner}; endLine and
lane are -1 until known. -/
structure DPath where
  startLine : Int
  endLine : Int
  lane : Int
  killPartner : Option ProcId
deriving Repr, DecidableEq

/-- The _paths map (process → Path), as an association list with unique
keys. -/
abbrev Paths := List (ProcId × DPath)

/-- Map lookup (std::unordered_map::find). -/
def lookupPath (ps : Paths) (key : ProcId) : Option DPath :=
  match ps with
  | [] => none
  | (k, v) :: rest => if k = key then some v else lookupPath rest key

/-- Update the value stored under an existing key. -/
def setPath (ps : Paths) (key : ProcId) (pa : DPath) : Paths :=
  match ps with
  | [] => []
  | (k, v) :: rest =>
    if k = key then (k, pa) :: rest else (k, v) :: setPath rest key pa

/-- Insert a fresh key (the callers check the key is absent first). -/
def insertPath (ps : Paths) (key : ProcId) (pa : DPath) : Paths :=
  ps ++ [(key, pa)]

/-- Diagram::Node: the process, the event consumed on this line (if any)
and the index of the pending next event (-1 if none). -/
structure DNode where
  proc : ProcId
  event : Option DEvent
  next : Int
deriving Repr, DecidableEq

/-- Is the event a LinkEvent (fork, reap or kill pair)? -/
def DEvent.isLink (e : DEvent) : Bool :=
  match e with
  | DEvent.fork _ => true
  | DEvent.reap _ => true
  | DEvent.kill _ _ => true
  | _ => false

/-- The event-filter tests of Diagram::_get_next_event: an event is skipped
when execs / failed execs / non-fatal signals / signal sends are hidden by
the options. -/
def skipEvent (opts : DOptions) (e : DEvent) : Bool :=
  match e with
  | DEvent.exec ok => !opts.showExecs || (!opts.showFailedExecs && !ok)
  | DEvent.sig killed => !opts.showNonFatalSignals && !killed
  | DEvent.kill _ _ => !opts.showSignalSends
  | DEvent.raiseSig => !opts.showSignalSends
  | _ => false

/-- The kill-event bookkeeping of Diagram::_get_next_event: when the found
event is a KillEvent, record its linked path in the process's killPartner
field (the C++ asserts the path exists and has no pending kill partner);
any other event leaves the map unchanged. -/
def noteKillPartner (paths : Paths) (proc : ProcId) (e : DEvent) : Option Paths :=
  match e with
  | DEvent.kill partner _ =>
    match lookupPath paths proc with
    | none => none
    | some pa =>
      if pa.killPartner = none then
        some (setPath paths proc { pa with killPartner := some partner })
      else none
  | _ => some paths

/-- The scan loop of Diagram::_get_next_event over one process's events
from index i (the remaining events are passed as the suffix starting at
index i): skip filtered events; at the first visible event perform the
kill-event bookkeeping and return the event's index.  Returns -1 when the
end of the event list is reached. -/
def get_next_event_loop (opts : DOptions) (proc : ProcId) :
    Paths → List DEvent → Nat → Option (Paths × Int)
  | paths, [], _ => some (paths, -1)
  | paths, e :: rest, i =>
    if skipEvent opts e then get_next_event_loop opts proc paths rest (i + 1)
    else (noteKillPartner paths proc e).map (fun paths2 => (paths2, (i : Int)))

/-- Diagram::_get_next_event(process, start). -/
def get_next_event (arena : Arena) (opts : DOptions) (paths : Paths)
    (proc : ProcId) (start : Nat) : Option (Paths × Int) :=
  match arena.get? proc with
  | none => none
  | some dp => get_next_event_loop opts proc paths (dp.events.drop start) start

/-- Node::next_event(): the event at index `next`, or none if next is -1. -/
def node_next_event (arena : Arena) (n : DNode) : Option DEvent :=
  if n.next = -1 then none
  else
    match arena.get? n.proc with
    | none => none
    | some dp => dp.events.get? n.next.toNat

/-- Node::end_of_path(): not reaped and no pending event. -/
def node_end_of_path (arena : Arena) (n : DNode) : Bool :=
  match arena.get? n.proc with
  | none => false
  | some dp => !dp.reaped && n.next = -1

/-- Diagram::_get_successor: a node consuming the pending event of the
previous node, with the next pending event found by _get_next_event. -/
def get_successor (arena : Arena) (opts : DOptions) (paths : Paths)
    (prev : DNode) : Option (Paths × DNode) :=
  if prev.next = -1 then some (paths, ⟨prev.proc, none, -1⟩)
  else
    match arena.get? prev.proc with
    | none => none
    | some dp =>
      match dp.events.get? prev.next.toNat with
      | none => none
      | some e =>
        match get_next_event arena opts paths prev.proc (prev.next.toNat + 1) with
        | none => none
        | some (paths', nxt) => some (paths', ⟨prev.proc, some e, nxt⟩)

/-- Diagram::_continue_path: a node that continues the path but consumes
nothing. -/
def continue_path (prev : DNode) : DNode :=
  ⟨prev.proc, none, prev.next⟩

/-- Diagram::_start_path: the first node of a process's path. -/
def start_path (arena : Arena) (opts : DOptions) (paths : Paths)
    (proc : ProcId) : Option (Paths × DNode) :=
  match get_next_event arena opts paths proc 0 with
  | none => none
  | some (paths', n) => some (paths', ⟨proc, none, n⟩)

/-- Diagram::_path_ready_to_end: the process's node on the previous line
has no pending event (false when it has no node there at all). -/
def path_ready_to_end (arena : Arena) (prevLine : List DNode) (proc : ProcId) : Bool :=
  match prevLine.find? (fun n => n.proc = proc) with
  | some n => (node_next_event arena n).isNone
  | none => false

/-- Diagram::_do_link_event: resolve a pending link event on prevNode's
path, appending the produced nodes to curLine.  Returns the updated paths,
the extended line and the process the linking line terminates on (none for
a fork or when the link has to wait). -/
def do_link_event (arena : Arena) (opts : DOptions) (prevLine : List DNode)
    (lineNum : Int) (paths : Paths) (curLine : List DNode) (prevNode : DNode)
    (ev : DEvent) : Option (Paths × List DNode × Option ProcId) :=
  match ev with
  | DEvent.fork child =>
    if (lookupPath paths child).isSome then none
    else
      let paths1 := insertPath paths child ⟨lineNum, -1, -1, none⟩
      match get_successor arena opts paths1 prevNode with
      | none => none
      | some (paths2, succ) =>
        match start_path arena opts paths2 child with
        | none => none
        | some (paths3, startN) => some (paths3, curLine ++ [succ, startN], none)
  | DEvent.reap child =>
    match lookupPath paths child with
    | none => none
    | some childPath =>
      if !path_ready_to_end arena prevLine child then
        some (paths, curLine ++ [continue_path prevNode], none)
      else
        let paths1 := setPath paths child { childPath with endLine := lineNum }
        match get_successor arena opts paths1 prevNode with
        | none => none
        | some (paths2, succ) => some (paths2, curLine ++ [succ], some child)
  | DEvent.kill partner _ =>
    match lookupPath paths partner with
    | none => some (paths, curLine ++ [continue_path prevNode], none)
    | some pp =>
      match lookupPath paths prevNode.proc with
      | none => none
      | some myPath =>
        if myPath.killPartner = none then
          if pp.killPartner ≠ none then none
          else
            match get_successor arena opts paths prevNode with
            | none => none
            | some (paths2, succ) => some (paths2, curLine ++ [succ], none)
        else if pp.killPartner ≠ some prevNode.proc then
          some (paths, curLine ++ [continue_path prevNode], none)
        else
          let paths1 := setPath paths partner { pp with killPartner := none }
          let paths2 :=
            match lookupPath paths1 prevNode.proc with
            | some pa => setPath paths1 prevNode.proc { pa with killPartner := none }
            | none => paths1
          match get_successor arena opts paths2 prevNode with
          | none => none
          | some (paths3, succ) => some (paths3, curLine ++ [succ], some partner)
  | _ => none

/-- The per-node accumulator of Diagram::_build_next_line's loop: the
paths map, the line under construction, and the process any open
horizontal linking line terminates on. -/
structure RoundAcc where
  paths : Paths
  curLine : List DNode
  eventEnd : Option ProcId
deriving Repr, DecidableEq

/-- One iteration of the loop body of Diagram::_build_next_line for a node
of the previous line. -/
def build_step (arena : Arena) (opts : DOptions) (leader : ProcId)
    (prevLine : List DNode) (lineNum : Int) (acc : RoundAcc)
    (prevNode : DNode) : Option RoundAcc :=
  match lookupPath acc.paths prevNode.proc with
  | none => none
  | some path0 =>
    let event := node_next_event arena prevNode
    let paths :=
      if ((prevNode.proc = leader ∧ event = none) ∨ node_end_of_path arena prevNode)
          ∧ path0.endLine = -1 then
        setPath acc.paths prevNode.proc
          { path0 with endLine := max (lineNum - 1) path0.startLine }
      else acc.paths
    let path := (lookupPath paths prevNode.proc).getD path0
    let eventEnd := if acc.eventEnd = some prevNode.proc then none else acc.eventEnd
    match event with
    | none =>
      if path.endLine = -1 ∨ path.endLine ≥ lineNum then
        some ⟨paths, acc.curLine ++ [continue_path prevNode], eventEnd⟩
      else
        some ⟨paths, acc.curLine, eventEnd⟩
    | some ev =>
      if ev.isLink then
        if eventEnd.isSome then
          some ⟨paths, acc.curLine ++ [continue_path prevNode], eventEnd⟩
        else
          match do_link_event arena opts prevLine lineNum paths acc.curLine prevNode ev with
          | none => none
          | some (paths', curLine', e) => some ⟨paths', curLine', e⟩
      else
        match get_successor arena opts paths prevNode with
        | none => none
        | some (paths', succ) => some ⟨paths', acc.curLine ++ [succ], eventEnd⟩

/-- The loop of Diagram::_build_next_line over the previous line. -/
def build_fold (arena : Arena) (opts : DOptions) (leader : ProcId)
    (prevLine : List DNode) (lineNum : Int) (acc : RoundAcc) :
    List DNode → Option RoundAcc
  | [] => some acc
  | n :: rest =>
    match build_step arena opts leader prevLine lineNum acc n with
    | none => none
    | some acc' => build_fold arena opts leader prevLine lineNum acc' rest

/-- The lines-so-far and paths-so-far of the line-construction pass. -/
structure BuildState where
  paths : Paths
  lines : List (List DNode)
deriving Repr, DecidableEq

/-- Diagram::_build_next_line: build the next line from the last one.
Returns the new state and whether a (nonempty) line was appended. -/
def build_next_line (arena : Arena) (opts : DOptions) (leader : ProcId)
    (st : BuildState) : Option (BuildState × Bool) :=
  match st.lines.getLast? with
  | none => none
  | some prevLine =>
    let lineNum : Int := st.lines.length
    match build_fold arena opts leader prevLine lineNum ⟨st.paths, [], none⟩ prevLine with
    | none => none
    | some acc =>
      if acc.curLine.isEmpty then some (⟨acc.paths, st.lines⟩, false)
      else some (⟨acc.paths, st.lines ++ [acc.curLine]⟩, true)

/-- The `while (_build_next_line()) { }` loop of Diagram::redraw, with
explicit fuel (the C++ loop can spin forever on trees that never settle). -/
def build_lines (arena : Arena) (opts : DOptions) (leader : ProcId) :
    Nat → BuildState → Option BuildState
  | 0, _ => none
  | fuel + 1, st =>
    match build_next_line arena opts leader st with
    | none => none
    | some (st', more) =>
      if more then build_lines arena opts leader fuel st' else some st'

/-- Does this path collide with any path already in the lane?  Overlap is
`myPath.endLine >= path->startLine && myPath.startLine <= path->endLine`
(from Diagram::_allocate_process_to_lane). -/
def lane_collides (paths : Paths) (my : DPath) (lane : List ProcId) : Bool :=
  lane.any (fun q =>
    match lookupPath paths q with
    | some pb => decide (my.endLine ≥ pb.startLine ∧ my.startLine ≤ pb.endLine)
    | none => false)

/-- The collision scan `for (long i = lanes.size() - 1; i >= 0; --i)`:
starting at the top lane and moving down, return the first (highest) lane
index that collides, or none. -/
def scan_lanes_from (paths : Paths) (my : DPath) (lanes : List (List ProcId)) :
    Nat → Option Nat
  | 0 => if lane_collides paths my (lanes.getD 0 []) then some 0 else none
  | i + 1 =>
    if lane_collides paths my (lanes.getD (i + 1) []) then some (i + 1)
    else scan_lanes_from paths my lanes i

/-- Append a process to the given lane. -/
def appendLane (lanes : List (List ProcId)) (i : Nat) (proc : ProcId) :
    List (List ProcId) :=
  lanes.set i ((lanes.getD i []) ++ [proc])

/-- The placement part of Diagram::_allocate_process_to_lane: tetris-drop
the process's path onto the lanes.  If the scan finds no collision the
path lands in lane 0; if the first collision from the top is at lane i and
a lane i+1 exists, it lands there; otherwise a new top lane is created. -/
def place_path (paths : Paths) (lanes : List (List ProcId)) (proc : ProcId) :
    Option (Paths × List (List ProcId)) :=
  match lookupPath paths proc with
  | none => none
  | some myPath =>
    if lanes.isEmpty then none
    else
      match scan_lanes_from paths myPath lanes (lanes.length - 1) with
      | some i =>
        if i + 1 < lanes.length then
          some (setPath paths proc { myPath with lane := ((i : Int) + 1) },
                appendLane lanes (i + 1) proc)
        else
          some (setPath paths proc { myPath with lane := (lanes.length : Int) },
                appendLane (lanes ++ [[]]) (lanes.length) proc)
      | none =>
        some (setPath paths proc { myPath with lane := 0 }, appendLane lanes 0 proc)

/-- The fork children of a process in reverse event order (the recursion
of _allocate_process_to_lane iterates the events backwards). -/
def fork_children_rev (arena : Arena) (proc : ProcId) : Option (List ProcId) :=
  match arena.get? proc with
  | none => none
  | some dp =>
    some (dp.events.reverse.filterMap (fun e =>
      match e with
      | DEvent.fork c => some c
      | _ => none))

/-- The depth-first recursion of Diagram::_allocate_process_to_lane,
expressed with an explicit work stack (pop a process, place its path, push
its fork children in reverse event order on top) and fuel. -/
def allocate_all (arena : Arena) :
    Nat → Paths → List (List ProcId) → List ProcId →
    Option (Paths × List (List ProcId))
  | _, paths, lanes, [] => some (paths, lanes)
  | 0, _, _, _ :: _ => none
  | fuel + 1, paths, lanes, proc :: stack =>
    match place_path paths lanes proc with
    | none => none
    | some (paths', lanes') =>
      match fork_children_rev arena proc with
      | none => none
      | some children => allocate_all arena fuel paths' lanes' (children ++ stack)

/-- Diagram::redraw without the drawing pass: seed the leader's path and
starting line, run the line construction to settlement, then pack all
paths into lanes.  Returns the final build state and the lane lists. -/
def diagram_build (arena : Arena) (opts : DOptions) (leader : ProcId)
    (buildFuel allocFuel : Nat) : Option (BuildState × List (List ProcId)) :=
  let paths0 : Paths := [(leader, ⟨0, -1, -1, none⟩)]
  match start_path arena opts paths0 leader with
  | none => none
  | some (paths1, startN) =>
    match build_lines arena opts leader buildFuel ⟨paths1, [[startN]]⟩ with
    | none => none
    | some st =>
      match allocate_all arena allocFuel st.paths [[]] [leader] with
      | none => none
      | some (paths2, lanes) => some (⟨paths2, st.lines⟩, lanes)

/-! ### Helper definitions and lemmas for the theorems -/

/-- Is this event a WaitEvent? -/
def Event.isWait (e : Event) : Bool :=
  match e.kind with
  | EventKind.wait _ => true
  | _ => false

/-- Number of WaitEvents in an event log. -/
def countWaits (events : List Event) : Nat :=
  (events.filter Event.isWait).length

/-- A successful backwards search returns the index of a WaitEvent of the
log with exactly the returned location and payload. -/
theorem search_wait_back_found (events : List Event) :
    ∀ i j loc w, search_wait_back events i = SearchResult.found j loc w →
      events.get? j = some ⟨loc, EventKind.wait w⟩ := by
  intro i
  induction i with
  | zero =>
    intro j loc w h
    rw [search_wait_back] at h
    cases hg : events.get? 0 with
    | none => rw [hg] at h; exact absurd h (by simp)
    | some e =>
      rw [hg] at h
      obtain ⟨eloc, ekind⟩ := e
      cases ekind <;> simp_all
  | succ i ih =>
    intro j loc w h
    rw [search_wait_back] at h
    cases hg : events.get? (i + 1) with
    | none => rw [hg] at h; exact absurd h (by simp)
    | some e =>
      rw [hg] at h
      obtain ⟨eloc, ekind⟩ := e
      cases ekind
      case wait => simp_all
      all_goals exact ih _ _ _ h

/-- Searching from an index holding a WaitEvent finds it immediately. -/
theorem search_wait_back_at (events : List Event) (i : Nat)
    (loc : Option SourceLocation) (w : WaitData)
    (hget : events.get? i = some ⟨loc, EventKind.wait w⟩) :
    search_wait_back events i = SearchResult.found i loc w := by
  cases i with
  | zero => rw [search_wait_back, hget]
  | succ n => rw [search_wait_back, hget]

/-- Searching a log whose last event is a WaitEvent, starting from the last
index, finds that event. -/
theorem search_wait_back_last (es : List Event) (loc : Option SourceLocation)
    (w : WaitData) :
    search_wait_back (es ++ [⟨loc, EventKind.wait w⟩]) es.length =
      SearchResult.found es.length loc w :=
  search_wait_back_at _ _ _ _ (by simp)

/-- find_tracee returns an element of the list with the requested pid. -/
theorem find_tracee_some (ts : List Tracee) (pid : Int) (it : Tracee)
    (h : find_tracee ts pid = some it) : it ∈ ts ∧ it.pid = pid := by
  induction ts with
  | nil => exact absurd h (by simp [find_tracee])
  | cons t rest ih =>
    rw [find_tracee] at h
    by_cases hp : t.pid = pid
    · rw [if_pos hp] at h
      injection h with h'
      subst h'
      exact ⟨List.mem_cons_self _ _, hp⟩
    · rw [if_neg hp] at h
      obtain ⟨hm, he⟩ := ih h
      exact ⟨List.mem_cons_of_mem t hm, he⟩

/-- When the pids of the map are distinct, no entry with the erased pid is
left after erase_tracee. -/
theorem erase_tracee_not_mem (ts : List Tracee) (pid : Int)
    (hnd : (ts.map Tracee.pid).Nodup) :
    ∀ t ∈ erase_tracee ts pid, t.pid ≠ pid := by
  induction ts with
  | nil => intro t ht; exact absurd ht (by simp [erase_tracee])
  | cons t rest ih =>
    rw [List.map_cons, List.nodup_cons] at hnd
    intro t' ht'
    rw [erase_tracee] at ht'
    by_cases hp : t.pid = pid
    · rw [if_pos hp] at ht'
      intro hcontra
      exact hnd.1 (by
        rw [hp, ← hcontra]
        exact List.mem_map_of_mem Tracee.pid ht')
    · rw [if_neg hp] at ht'
      rcases List.mem_cons.mp ht' with h | h
      · rw [h]; exact hp
      · exact ih hnd.2 t' h

/-! ### Claim theorems -/

/-- A fresh process with the given pid and an empty log. -/
def mkProc (pid : Int) (st : PState) (events : List Event) : Process :=
  ⟨pid, st, false, "", [], none, events⟩

/-- Claim C9: the backwards WaitEvent search of notify_failed_wait and
notify_reaped is claimed to stay in bounds and raise the "couldn't find the
initial wait event" ProcessTreeError when the log holds no WaitEvent.  The
code instead runs its size_t loop counter past zero: on a log with no
WaitEvent (here: an empty log) the first out-of-range access is to index
2^64 - 1, i.e. the C++ indexes the vector out of bounds (undefined
behaviour) and never reaches its own process_assert. -/
theorem wait_search_reads_out_of_bounds :
    (mkProc 1 PState.alive []).notify_failed_wait 4
        = Except.error (TraceError.outOfBoundsRead (SIZE_MOD - 1))
  ∧ (mkProc 1 PState.alive []).notify_reaped
        (mkProc 2 PState.zombie [⟨none, EventKind.exited 0⟩])
        = Except.error (TraceError.outOfBoundsRead (SIZE_MOD - 1)) :=
  ⟨rfl, rfl⟩

/-- Claim C8: copy_from_tracee is claimed to copy all len bytes for both
word-multiple and non-word-multiple lengths.  For a word-multiple length
the final `memcpy(..., len % sizeof(size_t))` copies zero bytes and the
trailing word is dropped: with tracee memory holding byte a+1 at address a
and a zeroed destination, a copy of len = 8 leaves the destination bytes 0
and 7 untouched (still 0), while the non-multiple len = 7 does copy them. -/
theorem copy_from_tracee_drops_last_word :
    copy_from_tracee (fun a => a + 1) 0 (fun _ => 0) 8 0 = 0
  ∧ copy_from_tracee (fun a => a + 1) 0 (fun _ => 0) 8 7 = 0
  ∧ (fun a => a + 1 : Nat → Nat) 0 = 1
  ∧ copy_from_tracee (fun a => a + 1) 0 (fun _ => 0) 7 0 = 1
  ∧ copy_from_tracee (fun a => a + 1) 0 (fun _ => 0) 7 6 = 7
  ∧ copy_from_tracee (fun a => a + 1) 0 (fun _ => 0) 16 15 = 0 :=
  ⟨rfl, rfl, rfl, rfl, rfl, rfl⟩

/-- Claim C4: the waitid argument translation maps (P_ALL, _) to -1,
(P_PID, id) to id and (P_PGID, id) to -id; any other idtype yields the
sentinel pid_t max, and when the kernel subsequently fails the call with
EINVAL the finalisation records the failure and produces no reap. -/
theorem waitid_translation (id : Nat) (type : Nat) (siPid siCode : Int)
    (hid : id < 2 ^ 31)
    (htype : type ≠ P_ALL ∧ type ≠ P_PID ∧ type ≠ P_PGID) :
    to_wait4_id P_ALL id = -1
  ∧ to_wait4_id P_PID id = (id : Int)
  ∧ to_wait4_id P_PGID id = -(id : Int)
  ∧ to_wait4_id type id = PID_T_MAX
  ∧ waitid_finalise_outcome (-EINVAL) siPid siCode = WaitOutcome.fail EINVAL := by
  have hcast : to_pid_t id = (id : Int) := by
    have h32 : id % 2 ^ 32 = id := Nat.mod_eq_of_lt (by omega)
    rw [to_pid_t, h32, if_pos hid]
  refine ⟨by rw [to_wait4_id, if_pos rfl], ?_, ?_, ?_, ?_⟩
  · rw [to_wait4_id, if_neg (by simp [P_ALL, P_PID]), if_pos rfl, hcast]
  · rw [to_wait4_id, if_neg (by simp [P_ALL, P_PGID]),
      if_neg (by simp [P_PID, P_PGID]), if_pos rfl, hcast]
  · rw [to_wait4_id, if_neg htype.1, if_neg htype.2.1, if_neg htype.2.2]
  · rw [waitid_finalise_outcome, if_neg (by simp [EINVAL]), if_pos (by simp [EINVAL])]
    simp [EINVAL]

/-- Witness for waitid_translation at concrete inputs. -/
theorem waitid_translation_witness :
    (5 : Nat) < 2 ^ 31
  ∧ ((7 : Nat) ≠ P_ALL ∧ (7 : Nat) ≠ P_PID ∧ (7 : Nat) ≠ P_PGID)
  ∧ (to_wait4_id P_ALL 5 = -1
      ∧ to_wait4_id P_PID 5 = (5 : Int)
      ∧ to_wait4_id P_PGID 5 = -(5 : Int)
      ∧ to_wait4_id 7 5 = PID_T_MAX
      ∧ waitid_finalise_outcome (-EINVAL) 3 1 = WaitOutcome.fail EINVAL) :=
  ⟨by decide, ⟨by decide, by decide, by decide⟩,
    waitid_translation 5 7 3 1 (by decide) ⟨by decide, by decide, by decide⟩⟩

/-- Claim C10: calling notify_waiting with parameters different from those
of a trailing ERESTARTSYS-failed WaitEvent raises a ProcessTreeError; the
C++ throws before any mutation, so the event log is unchanged (which the
embedding reflects by returning only the error, with no new process
state). -/
theorem notify_waiting_mismatch_error (p : Process) (eloc : Option SourceLocation)
    (w : WaitData) (waitedId : Int) (nohang : Bool)
    (hlast : p.events.getLast? = some ⟨eloc, EventKind.wait w⟩)
    (herr : w.error = ERESTARTSYS)
    (hdiff : ¬(w.waitedId = waitedId ∧ w.nohang = nohang)) :
    p.notify_waiting waitedId nohang =
      Except.error (TraceError.processTree
        "notify_waiting called after interrupted wait but with different parameters") := by
  rw [Process.notify_waiting, hlast]
  simp only [if_pos herr, if_neg hdiff]

/-- Characterisation of a successful add_event: the log is extended by the
event (whose location slot may have absorbed the process's pending
location); state, pid and killed flag are untouched. -/
theorem add_event_ok_shape (p : Process) (e : Event) (c : Bool) (q : Process)
    (h : p.add_event e c = Except.ok q) :
    ∃ l, q.events = p.events ++ [{ e with loc := l }] ∧ q.state = p.state
      ∧ q.pid = p.pid ∧ q.killed = p.killed := by
  rw [Process.add_event] at h
  by_cases ha : p.state = PState.alive
  · rw [if_pos ha] at h
    by_cases hl : p.location.isSome ∧ c
    · rw [if_pos hl] at h
      injection h with h'
      subst h'
      exact ⟨p.location, rfl, rfl, rfl, rfl⟩
    · rw [if_neg hl] at h
      injection h with h'
      subst h'
      exact ⟨e.loc, rfl, rfl, rfl, rfl⟩
  · rw [if_neg ha] at h
    exact absurd h (by simp)

/-- add_event on a process that is not ALIVE throws a ProcessTreeError. -/
theorem add_event_dead (p : Process) (e : Event) (c : Bool)
    (hdead : p.state ≠ PState.alive) :
    p.add_event e c =
      Except.error (TraceError.processTree "add_event called when state is not ALIVE") := by
  rw [Process.add_event, if_neg hdead]

/-- Setting the element just past a list appended with one element replaces
that element. -/
theorem set_concat_length {α : Type} (es : List α) (x y : α) :
    (es ++ [x]).set es.length y = es ++ [y] := by
  induction es with
  | nil => rfl
  | cons a rest ih => simp [List.set, ih]

/-- countWaits over an appended singleton. -/
theorem countWaits_concat (es : List Event) (e : Event) :
    countWaits (es ++ [e]) = countWaits es + (if e.isWait then 1 else 0) := by
  rw [countWaits, countWaits, List.filter_append]
  cases he : e.isWait <;> simp [List.filter, he]

/-- Witness for notify_waiting_mismatch_error at a concrete process. -/
theorem notify_waiting_mismatch_error_witness :
    (mkProc 1 PState.alive [⟨none, EventKind.wait ⟨-1, ERESTARTSYS, false⟩⟩]).notify_waiting 5 false =
      Except.error (TraceError.processTree
        "notify_waiting called after interrupted wait but with different parameters") :=
  notify_waiting_mismatch_error _ none ⟨-1, ERESTARTSYS, false⟩ 5 false rfl rfl
    (by decide)

/-- On an alive process, add_event succeeds and appends the event (whose
location slot may absorb the pending location). -/
theorem add_event_ok_exists (p : Process) (e : Event) (c : Bool)
    (halive : p.state = PState.alive) :
    ∃ q l, p.add_event e c = Except.ok q
      ∧ q.events = p.events ++ [{ e with loc := l }] ∧ q.state = p.state := by
  rw [Process.add_event, if_pos halive]
  split_ifs
  · exact ⟨_, p.location, rfl, rfl, rfl⟩
  · exact ⟨_, e.loc, rfl, rfl, rfl⟩

/-- A fresh pending WaitEvent is appended when the log holds no WaitEvent
at all (so no merge can trigger) and the process is alive. -/
theorem notify_waiting_appends (q : Process) (waitedId : Int) (nohang : Bool)
    (halive : q.state = PState.alive) (hnowait : countWaits q.events = 0) :
    ∃ q1 l, q.notify_waiting waitedId nohang = Except.ok q1
      ∧ q1.events = q.events ++ [⟨l, EventKind.wait ⟨waitedId, 0, nohang⟩⟩]
      ∧ q1.state = q.state := by
  have happ : ∃ q1 l, q.add_event ⟨none, EventKind.wait ⟨waitedId, 0, nohang⟩⟩ true
        = Except.ok q1
      ∧ q1.events = q.events ++ [⟨l, EventKind.wait ⟨waitedId, 0, nohang⟩⟩]
      ∧ q1.state = q.state := by
    rw [Process.add_event, if_pos halive]
    split_ifs with hl
    · exact ⟨_, q.location, rfl, rfl, rfl⟩
    · exact ⟨_, none, rfl, rfl, rfl⟩
  rw [Process.notify_waiting]
  cases hlast : q.events.getLast? with
  | none => exact happ
  | some e =>
    obtain ⟨eloc, ekind⟩ := e
    cases ekind
    case wait w =>
      exfalso
      have hsplit : q.events.dropLast ++ [⟨eloc, EventKind.wait w⟩] = q.events :=
        List.dropLast_append_getLast? _ (by simp [hlast])
      rw [← hsplit, countWaits_concat] at hnowait
      simp [Event.isWait] at hnowait
    all_goals exact happ

/-- Claim C3: a wait that failed with ERESTARTSYS, retried with identical
(waited-id, nohang) parameters and with nothing in between, is merged into
the existing WaitEvent by clearing its error to 0: the log keeps its
length, the WaitEvent count is unchanged, and (second conjunct) the full
scenario wait / ERESTARTSYS failure / retried wait on a log with no prior
WaitEvents yields exactly one WaitEvent. -/
theorem erestartsys_wait_merge (p : Process) (es : List Event)
    (eloc : Option SourceLocation) (w : WaitData) (waitedId : Int) (nohang : Bool)
    (hev : p.events = es ++ [⟨eloc, EventKind.wait w⟩])
    (herr : w.error = ERESTARTSYS) (hid : w.waitedId = waitedId)
    (hnh : w.nohang = nohang) :
    (p.notify_waiting waitedId nohang =
      Except.ok { p with events := es ++ [⟨eloc, EventKind.wait { w with error := 0 }⟩] }
    ∧ countWaits (es ++ [⟨eloc, EventKind.wait { w with error := 0 }⟩]) = countWaits p.events)
  ∧ (∀ q : Process, q.state = PState.alive → countWaits q.events = 0 →
      ∀ q1 q2 q3, q.notify_waiting waitedId nohang = Except.ok q1 →
        q1.notify_failed_wait ERESTARTSYS = Except.ok q2 →
        q2.notify_waiting waitedId nohang = Except.ok q3 →
        countWaits q3.events = 1 ∧ q3.events.length = q1.events.length) := by
  constructor
  · constructor
    · rw [Process.notify_waiting, hev, List.getLast?_concat]
      simp only [if_pos herr,
        if_pos (show w.waitedId = waitedId ∧ w.nohang = nohang from ⟨hid, hnh⟩),
        List.dropLast_concat]
    · rw [hev, countWaits_concat, countWaits_concat]
      simp [Event.isWait]
  · intro q halive hnowait q1 q2 q3 h1 h2 h3
    obtain ⟨q1', l, h1', hev1, hst1⟩ := notify_waiting_appends q waitedId nohang halive hnowait
    rw [h1] at h1'
    injection h1' with h1''
    subst h1''
    -- q1's trailing WaitEvent gets the error written into it by notify_failed_wait
    have hidx : start_index q1.events.length = q.events.length := by
      rw [hev1, start_index]
      simp
    have hsearch : search_wait_back q1.events (start_index q1.events.length) =
        SearchResult.found q.events.length l ⟨waitedId, 0, nohang⟩ := by
      rw [hidx, hev1]
      exact search_wait_back_last q.events l ⟨waitedId, 0, nohang⟩
    rw [Process.notify_failed_wait, hsearch] at h2
    simp only [if_pos rfl] at h2
    injection h2 with h2'
    subst h2'
    -- the retry merges in place
    have hev2 : ({ q1 with events := (q1.events.set q.events.length
          (⟨l, EventKind.wait ⟨waitedId, ERESTARTSYS, nohang⟩⟩ : Event)) } : Process).events
        = q.events ++ [⟨l, EventKind.wait ⟨waitedId, ERESTARTSYS, nohang⟩⟩] := by
      simp only [hev1]
      exact set_concat_length q.events _ _
    rw [Process.notify_waiting, hev2, List.getLast?_concat] at h3
    simp only [if_pos rfl, if_pos (⟨rfl, rfl⟩ : waitedId = waitedId ∧ nohang = nohang),
      and_self, if_true, List.dropLast_concat] at h3
    injection h3 with h3'
    subst h3'
    constructor
    · simp [countWaits_concat, hnowait, Event.isWait]
    · simp [hev1]

/-- Witness for erestartsys_wait_merge at a concrete process. -/
theorem erestartsys_wait_merge_witness :
    ((mkProc 1 PState.alive [⟨none, EventKind.wait ⟨-1, ERESTARTSYS, false⟩⟩]).notify_waiting (-1) false =
        Except.ok (mkProc 1 PState.alive [⟨none, EventKind.wait ⟨-1, 0, false⟩⟩])
      ∧ countWaits [⟨none, EventKind.wait ⟨-1, 0, false⟩⟩] =
          countWaits (mkProc 1 PState.alive [⟨none, EventKind.wait ⟨-1, ERESTARTSYS, false⟩⟩]).events)
  ∧ (∀ q : Process, q.state = PState.alive → countWaits q.events = 0 →
      ∀ q1 q2 q3, q.notify_waiting (-1) false = Except.ok q1 →
        q1.notify_failed_wait ERESTARTSYS = Except.ok q2 →
        q2.notify_waiting (-1) false = Except.ok q3 →
        countWaits q3.events = 1 ∧ q3.events.length = q1.events.length) :=
  erestartsys_wait_merge _ [] none ⟨-1, ERESTARTSYS, false⟩ (-1) false rfl rfl rfl rfl

/-- notify_exec appended a new single-attempt ExecEvent to the log. -/
def appendsExec (p : Process) (file : String) (args : List String)
    (errcode : Int) : Prop :=
  ∃ q l, p.notify_exec file args errcode = Except.ok q
    ∧ q.events = p.events ++ [⟨l, EventKind.exec [⟨file, errcode⟩] args⟩]

/-- Claim C5: consecutive failed exec calls with the same argv and the same
basename(file) merge into the last ExecEvent, extending its attempts list
in insertion order; in every other case (empty log, last event not an exec,
last exec succeeded, different argv, or different basename) a fresh
ExecEvent is appended. -/
theorem exec_merge (p : Process) (file : String) (args : List String)
    (errcode : Int) (halive : p.state = PState.alive) :
    (∀ es eloc calls, p.events = es ++ [⟨eloc, EventKind.exec calls args⟩] →
      execSucceeded calls = false →
      get_base_name file = get_base_name (execCallFile calls) →
      p.notify_exec file args errcode =
        Except.ok { p with
          events := es ++ [⟨eloc, EventKind.exec (calls ++ [⟨file, errcode⟩]) args⟩] })
  ∧ (p.events = [] → appendsExec p file args errcode)
  ∧ (∀ es eloc ekind, p.events = es ++ [⟨eloc, ekind⟩] →
      (∀ calls eargs, ekind ≠ EventKind.exec calls eargs) →
      appendsExec p file args errcode)
  ∧ (∀ es eloc calls eargs, p.events = es ++ [⟨eloc, EventKind.exec calls eargs⟩] →
      execSucceeded calls = true →
      appendsExec p file args errcode)
  ∧ (∀ es eloc calls eargs, p.events = es ++ [⟨eloc, EventKind.exec calls eargs⟩] →
      eargs ≠ args →
      appendsExec p file args errcode)
  ∧ (∀ es eloc calls, p.events = es ++ [⟨eloc, EventKind.exec calls args⟩] →
      execSucceeded calls = false →
      get_base_name file ≠ get_base_name (execCallFile calls) →
      appendsExec p file args errcode) := by
  obtain ⟨q, l, hq, hqe, _⟩ :=
    add_event_ok_exists p ⟨none, EventKind.exec [⟨file, errcode⟩] args⟩ true halive
  refine ⟨?_, ?_, ?_, ?_, ?_, ?_⟩
  · intro es eloc calls hev hfail hbase
    rw [Process.notify_exec, hev, List.getLast?_concat]
    simp only [if_neg (show ¬(execSucceeded calls = true ∨ ¬args = args) by
        simp [hfail]),
      if_neg (show ¬(get_base_name file ≠ get_base_name (execCallFile calls)
          ∨ ¬args = args) by simp [hbase]),
      List.dropLast_concat]
  · intro hev
    refine ⟨q, l, ?_, hqe⟩
    rw [Process.notify_exec, hev]
    exact hq
  · intro es eloc ekind hev hne
    refine ⟨q, l, ?_, hqe⟩
    rw [Process.notify_exec, hev, List.getLast?_concat]
    cases ekind
    case exec calls eargs => exact absurd rfl (hne calls eargs)
    all_goals exact hq
  · intro es eloc calls eargs hev hsucc
    refine ⟨q, l, ?_, hqe⟩
    rw [Process.notify_exec, hev, List.getLast?_concat]
    simp only [if_pos (Or.inl hsucc)]
    exact hq
  · intro es eloc calls eargs hev hargs
    refine ⟨q, l, ?_, hqe⟩
    rw [Process.notify_exec, hev, List.getLast?_concat]
    simp only [if_pos (Or.inr hargs)]
    exact hq
  · intro es eloc calls hev hfail hbase
    refine ⟨q, l, ?_, hqe⟩
    rw [Process.notify_exec, hev, List.getLast?_concat]
    simp only [if_neg (show ¬(execSucceeded calls = true ∨ ¬args = args) by
        simp [hfail]),
      if_pos (Or.inl hbase)]
    exact hq

/-- Witness for exec_merge at a concrete process (a failed exec of
"/usr/bin/cat" followed by a failed exec of "/bin/cat" with the same
argv). -/
theorem exec_merge_witness :
    ((∀ es eloc calls,
        (mkProc 1 PState.alive [⟨none, EventKind.exec [⟨"/usr/bin/cat", 2⟩] ["cat"]⟩]).events
          = es ++ [⟨eloc, EventKind.exec calls ["cat"]⟩] →
        execSucceeded calls = false →
        get_base_name "/bin/cat" = get_base_name (execCallFile calls) →
        (mkProc 1 PState.alive [⟨none, EventKind.exec [⟨"/usr/bin/cat", 2⟩] ["cat"]⟩]).notify_exec
            "/bin/cat" ["cat"] 2 =
          Except.ok { mkProc 1 PState.alive [⟨none, EventKind.exec [⟨"/usr/bin/cat", 2⟩] ["cat"]⟩] with
            events := es ++ [⟨eloc, EventKind.exec (calls ++ [⟨"/bin/cat", 2⟩]) ["cat"]⟩] })
      ∧ (((mkProc 1 PState.alive [⟨none, EventKind.exec [⟨"/usr/bin/cat", 2⟩] ["cat"]⟩]).events = []) →
          appendsExec (mkProc 1 PState.alive [⟨none, EventKind.exec [⟨"/usr/bin/cat", 2⟩] ["cat"]⟩])
            "/bin/cat" ["cat"] 2)
      ∧ (∀ es eloc ekind,
          (mkProc 1 PState.alive [⟨none, EventKind.exec [⟨"/usr/bin/cat", 2⟩] ["cat"]⟩]).events
            = es ++ [⟨eloc, ekind⟩] →
          (∀ calls eargs, ekind ≠ EventKind.exec calls eargs) →
          appendsExec (mkProc 1 PState.alive [⟨none, EventKind.exec [⟨"/usr/bin/cat", 2⟩] ["cat"]⟩])
            "/bin/cat" ["cat"] 2)
      ∧ (∀ es eloc calls eargs,
          (mkProc 1 PState.alive [⟨none, EventKind.exec [⟨"/usr/bin/cat", 2⟩] ["cat"]⟩]).events
            = es ++ [⟨eloc, EventKind.exec calls eargs⟩] →
          execSucceeded calls = true →
          appendsExec (mkProc 1 PState.alive [⟨none, EventKind.exec [⟨"/usr/bin/cat", 2⟩] ["cat"]⟩])
            "/bin/cat" ["cat"] 2)
      ∧ (∀ es eloc calls eargs,
          (mkProc 1 PState.alive [⟨none, EventKind.exec [⟨"/usr/bin/cat", 2⟩] ["cat"]⟩]).events
            = es ++ [⟨eloc, EventKind.exec calls eargs⟩] →
          eargs ≠ ["cat"] →
          appendsExec (mkProc 1 PState.alive [⟨none, EventKind.exec [⟨"/usr/bin/cat", 2⟩] ["cat"]⟩])
            "/bin/cat" ["cat"] 2)
      ∧ (∀ es eloc calls,
          (mkProc 1 PState.alive [⟨none, EventKind.exec [⟨"/usr/bin/cat", 2⟩] ["cat"]⟩]).events
            = es ++ [⟨eloc, EventKind.exec calls ["cat"]⟩] →
          execSucceeded calls = false →
          get_base_name "/bin/cat" ≠ get_base_name (execCallFile calls) →
          appendsExec (mkProc 1 PState.alive [⟨none, EventKind.exec [⟨"/usr/bin/cat", 2⟩] ["cat"]⟩])
            "/bin/cat" ["cat"] 2))
  ∧ (mkProc 1 PState.alive [⟨none, EventKind.exec [⟨"/usr/bin/cat", 2⟩] ["cat"]⟩]).notify_exec
        "/bin/cat" ["cat"] 2 =
      Except.ok (mkProc 1 PState.alive
        [⟨none, EventKind.exec [⟨"/usr/bin/cat", 2⟩, ⟨"/bin/cat", 2⟩] ["cat"]⟩]) := by
  have h := exec_merge (mkProc 1 PState.alive [⟨none, EventKind.exec [⟨"/usr/bin/cat", 2⟩] ["cat"]⟩])
    "/bin/cat" ["cat"] 2 rfl
  refine ⟨h, ?_⟩
  have := h.1 [] none [⟨"/usr/bin/cat", 2⟩] rfl rfl (by decide)
  rw [this]
  rfl

/-- Claim C2: when a wait blocking call finalises with a reap of `chosen`,
the reaped child must be in the tracee map and Dead (else a BadTraceError),
the waiter's pending WaitEvent is promoted in place into a ReapEvent
holding the child, the child's state goes Zombie → Reaped, and the child's
entry is removed from the map. -/
theorem wait_on_success_reaps (tracees : List Tracee) (tracee : Tracee)
    (chosen : Int) (hnd : (tracees.map Tracee.pid).Nodup) :
    (find_tracee tracees chosen = none →
      WaitCall.on_success tracees tracee chosen =
        Except.error (TraceError.badTrace tracee.pid "Tracee reaped an unknown child."))
  ∧ (∀ it, find_tracee tracees chosen = some it → it.state ≠ TraceeState.dead →
      WaitCall.on_success tracees tracee chosen =
        Except.error (TraceError.badTrace tracee.pid
          "Tracee reaped a child that was not dead."))
  ∧ (∀ w' c' m', WaitCall.on_success tracees tracee chosen = Except.ok (w', c', m') →
      c'.state = PState.reaped
      ∧ (∀ t ∈ m', t.pid ≠ chosen)
      ∧ (∃ it, find_tracee tracees chosen = some it ∧ it.state = TraceeState.dead
          ∧ it.process.state = PState.zombie
          ∧ c' = { it.process with state := PState.reaped })
      ∧ (∃ i loc w, tracee.process.events.get? i = some ⟨loc, EventKind.wait w⟩
          ∧ w.error = 0
          ∧ w'.events = tracee.process.events.set i
              (⟨loc, EventKind.reap w c'.pid⟩ : Event))) := by
  refine ⟨?_, ?_, ?_⟩
  · intro hnone
    rw [WaitCall.on_success, hnone]
  · intro it hit hstate
    rw [WaitCall.on_success, hit]
    exact if_neg hstate
  · intro w' c' m' hok
    rw [WaitCall.on_success] at hok
    cases hfind : find_tracee tracees chosen with
    | none => rw [hfind] at hok; simp at hok
    | some it =>
      simp only [hfind] at hok
      by_cases hst : it.state = TraceeState.dead
      · rw [if_pos hst] at hok
        cases hre : tracee.process.notify_reaped it.process with
        | error e =>
          simp only [hre] at hok
          exact absurd hok (by simp)
        | ok r =>
          obtain ⟨r1, r2⟩ := r
          simp only [hre, Except.ok.injEq, Prod.mk.injEq] at hok
          obtain ⟨hw, hc, hm⟩ := hok
          rw [Process.notify_reaped] at hre
          by_cases hz : it.process.state = PState.zombie
          · rw [if_pos hz] at hre
            cases hsr : search_wait_back tracee.process.events
                (start_index tracee.process.events.length) with
            | outOfBounds i =>
              simp only [hsr] at hre
              exact absurd hre (by simp)
            | found i loc w =>
              simp only [hsr] at hre
              by_cases herr : w.error = 0
              · rw [if_pos herr] at hre
                simp only [Except.ok.injEq, Prod.mk.injEq] at hre
                obtain ⟨hrw, hrc⟩ := hre
                rw [← hc, ← hrc]
                refine ⟨rfl, ?_, ?_, ?_⟩
                · rw [← hm]
                  exact erase_tracee_not_mem tracees chosen hnd
                · exact ⟨it, rfl, hst, hz, rfl⟩
                · refine ⟨i, loc, w,
                    search_wait_back_found tracee.process.events _ i loc w hsr,
                    herr, ?_⟩
                  rw [← hw, ← hrw]
              · rw [if_neg herr] at hre
                simp at hre
          · rw [if_neg hz] at hre
            simp at hre
      · rw [if_neg hst] at hok
        simp at hok

/-- Witness for wait_on_success_reaps on a one-entry map: waiter process 1
with a pending WaitEvent reaps the dead zombie tracee 2. -/
theorem wait_on_success_reaps_witness :
    ((find_tracee [⟨2, TraceeState.dead, mkProc 2 PState.zombie [⟨none, EventKind.exited 0⟩]⟩]
        2 = none →
      WaitCall.on_success [⟨2, TraceeState.dead, mkProc 2 PState.zombie [⟨none, EventKind.exited 0⟩]⟩]
          ⟨1, TraceeState.stopped, mkProc 1 PState.alive [⟨none, EventKind.wait ⟨-1, 0, false⟩⟩]⟩ 2 =
        Except.error (TraceError.badTrace 1 "Tracee reaped an unknown child."))
  ∧ (∀ it, find_tracee [⟨2, TraceeState.dead, mkProc 2 PState.zombie [⟨none, EventKind.exited 0⟩]⟩]
        2 = some it → it.state ≠ TraceeState.dead →
      WaitCall.on_success [⟨2, TraceeState.dead, mkProc 2 PState.zombie [⟨none, EventKind.exited 0⟩]⟩]
          ⟨1, TraceeState.stopped, mkProc 1 PState.alive [⟨none, EventKind.wait ⟨-1, 0, false⟩⟩]⟩ 2 =
        Except.error (TraceError.badTrace 1 "Tracee reaped a child that was not dead."))
  ∧ (∀ w' c' m', WaitCall.on_success
        [⟨2, TraceeState.dead, mkProc 2 PState.zombie [⟨none, EventKind.exited 0⟩]⟩]
        ⟨1, TraceeState.stopped, mkProc 1 PState.alive [⟨none, EventKind.wait ⟨-1, 0, false⟩⟩]⟩ 2 =
          Except.ok (w', c', m') →
      c'.state = PState.reaped
      ∧ (∀ t ∈ m', t.pid ≠ 2)
      ∧ (∃ it, find_tracee [⟨2, TraceeState.dead, mkProc 2 PState.zombie [⟨none, EventKind.exited 0⟩]⟩]
            2 = some it ∧ it.state = TraceeState.dead
          ∧ it.process.state = PState.zombie
          ∧ c' = { it.process with state := PState.reaped })
      ∧ (∃ i loc w, (mkProc 1 PState.alive [⟨none, EventKind.wait ⟨-1, 0, false⟩⟩]).events.get? i
            = some ⟨loc, EventKind.wait w⟩
          ∧ w.error = 0
          ∧ w'.events = (mkProc 1 PState.alive [⟨none, EventKind.wait ⟨-1, 0, false⟩⟩]).events.set i
              (⟨loc, EventKind.reap w c'.pid⟩ : Event))))
  ∧ WaitCall.on_success [⟨2, TraceeState.dead, mkProc 2 PState.zombie [⟨none, EventKind.exited 0⟩]⟩]
      ⟨1, TraceeState.stopped, mkProc 1 PState.alive [⟨none, EventKind.wait ⟨-1, 0, false⟩⟩]⟩ 2 =
    Except.ok (mkProc 1 PState.alive [⟨none, EventKind.reap ⟨-1, 0, false⟩ 2⟩],
      mkProc 2 PState.reaped [⟨none, EventKind.exited 0⟩], []) :=
  ⟨wait_on_success_reaps _ _ 2 (by decide), rfl⟩

/-- add_event on a dead process never succeeds. -/
theorem not_add_event_ok_of_dead (p : Process) (e : Event) (c : Bool) (q : Process)
    (hdead : p.state ≠ PState.alive) : p.add_event e c ≠ Except.ok q := by
  rw [add_event_dead p e c hdead]
  simp

/-- Appending one element to the dropLast of a nonempty list preserves the
length. -/
theorem length_dropLast_concat_one {α : Type} (l : List α) (x : α) (hne : l ≠ []) :
    (l.dropLast ++ [x]).length = l.length := by
  have := List.length_pos.mpr hne
  simp [List.length_dropLast]
  omega

/-- Appending two elements to the dropLast of a nonempty list grows the
length by one. -/
theorem length_dropLast_concat_two {α : Type} (l : List α) (x y : α) (hne : l ≠ []) :
    (l.dropLast ++ [x, y]).length = l.length + 1 := by
  have := List.length_pos.mpr hne
  simp [List.length_dropLast]
  omega

/-- A list with a getLast? value is nonempty. -/
theorem ne_nil_of_getLast? {α : Type} (l : List α) (x : α)
    (h : l.getLast? = some x) : l ≠ [] := by
  intro hh
  rw [hh] at h
  exact absurd h (by simp)

/-- Claim C1, counterexample: notify_sent_signal delivering the
receiver-side KillEvent of a kill pair to a process that is already dead
appends a new event to that process's log (inserted before the death
event), even though its state is not Alive — this is not one of the
in-place promotions, so the log is not frozen as claimed. -/
theorem kill_event_appended_to_dead_receiver :
    (mkProc 2 PState.zombie [⟨none, EventKind.exited 0⟩]).state ≠ PState.alive
  ∧ (mkProc 2 PState.zombie [⟨none, EventKind.exited 0⟩]).events.length = 1
  ∧ applyMutation (mkProc 2 PState.zombie [⟨none, EventKind.exited 0⟩])
      (Mutation.sentSignalDest 2 (mkProc 1 PState.alive []) 9 false) =
      Except.ok (mkProc 2 PState.zombie
        [⟨none, EventKind.kill ⟨1, 2, 9, false⟩ false⟩, ⟨none, EventKind.exited 0⟩])
  ∧ (mkProc 2 PState.zombie
      [⟨none, EventKind.kill ⟨1, 2, 9, false⟩ false⟩, ⟨none, EventKind.exited 0⟩]).events.length = 2 :=
  ⟨by decide, rfl, rfl, rfl⟩

/-- The ways a successful mutator may leave the event log of a process
whose state is not Alive: unchanged, or exactly one of the in-place
updates the mutators perform without a state check — notify_reaped's
Wait→Reap replacement, notify_failed_wait's errno write into the pending
WaitEvent, notify_ended's promotion of a trailing SignalEvent's killed
flag, notify_exec's extension of a trailing failed ExecEvent's attempts
list, notify_waiting's clearing of a trailing interrupted WaitEvent's
ERESTARTSYS error — or the one genuine append: notify_sent_signal's
insertion of the receiver-side KillEvent of a kill pair immediately
before the dead receiver's death event. -/
def FrozenLogUpdate (p p' : Process) (m : Mutation) : Prop :=
    p'.events = p.events
  ∨ (∃ child i loc w, m = Mutation.reapedChild child ∧
      p.events.get? i = some ⟨loc, EventKind.wait w⟩ ∧ w.error = 0 ∧
      p'.events = p.events.set i ⟨loc, EventKind.reap w child.pid⟩)
  ∨ (∃ err i loc w, m = Mutation.failedWait err ∧
      p.events.get? i = some ⟨loc, EventKind.wait w⟩ ∧ w.error = 0 ∧
      p'.events = p.events.set i ⟨loc, EventKind.wait { w with error := err }⟩)
  ∨ (∃ status loc origin s b, m = Mutation.ended status ∧
      p.events.getLast? = some ⟨loc, EventKind.sig origin s b⟩ ∧
      p'.events = p.events.dropLast ++ [⟨loc, EventKind.sig origin s true⟩])
  ∨ (∃ file args errcode loc calls eargs, m = Mutation.exec file args errcode ∧
      p.events.getLast? = some ⟨loc, EventKind.exec calls eargs⟩ ∧
      execSucceeded calls = false ∧
      p'.events = p.events.dropLast ++
        [⟨loc, EventKind.exec (calls ++ [⟨file, errcode⟩]) eargs⟩])
  ∨ (∃ waitedId nohang loc w, m = Mutation.waiting waitedId nohang ∧
      p.events.getLast? = some ⟨loc, EventKind.wait w⟩ ∧ w.error = ERESTARTSYS ∧
      p'.events = p.events.dropLast ++ [⟨loc, EventKind.wait { w with error := 0 }⟩])
  ∨ (∃ killedId source signal toThread death,
      m = Mutation.sentSignalDest killedId source signal toThread ∧
      p.events.getLast? = some death ∧
      p'.events = p.events.dropLast ++
        [⟨none, EventKind.kill ⟨source.pid, p.pid, signal, toThread⟩ false⟩, death])

/-- Claim C1, amended: for every process-model mutator applied to a process
whose state is not Alive, a successful application leaves the event log
unchanged except for the in-place updates performed without a state check
(notify_reaped's Wait→Reap replacement on the owner, notify_failed_wait's
errno write into the pending WaitEvent, notify_ended's promotion of a
trailing SignalEvent's killed flag, notify_exec's extension of a trailing
failed ExecEvent's attempts list, notify_waiting's clearing of a trailing
interrupted WaitEvent's ERESTARTSYS error) and the one genuine append:
notify_sent_signal delivering the receiver-side KillEvent of a kill pair
to an already-dead receiver inserts that KillEvent immediately before the
trailing death event. -/
theorem process_log_frozen_amended (p : Process) (m : Mutation) (p' : Process)
    (hdead : p.state ≠ PState.alive) (hok : applyMutation p m = Except.ok p') :
    FrozenLogUpdate p p' m := by
  cases m with
  | waiting waitedId nohang =>
    rw [applyMutation, Process.notify_waiting] at hok
    cases hlast : p.events.getLast? with
    | none =>
      simp only [hlast] at hok
      exact absurd hok (not_add_event_ok_of_dead p _ _ _ hdead)
    | some e =>
      obtain ⟨eloc, ekind⟩ := e
      simp only [hlast] at hok
      split at hok
      next w =>
        by_cases herr : w.error = ERESTARTSYS
        · rw [if_pos herr] at hok
          by_cases hsame : w.waitedId = waitedId ∧ w.nohang = nohang
          · rw [if_pos hsame] at hok
            injection hok with hok'
            exact Or.inr (Or.inr (Or.inr (Or.inr (Or.inr (Or.inl
              ⟨waitedId, nohang, eloc, w, rfl, hlast, herr, by rw [← hok']⟩)))))
          · rw [if_neg hsame] at hok
            exact absurd hok (by simp)
        · rw [if_neg herr] at hok
          exact absurd hok (not_add_event_ok_of_dead p _ _ _ hdead)
      next =>
        exact absurd hok (not_add_event_ok_of_dead p _ _ _ hdead)
  | failedWait error =>
    rw [applyMutation, Process.notify_failed_wait] at hok
    cases hsr : search_wait_back p.events (start_index p.events.length) with
    | outOfBounds i =>
      simp only [hsr] at hok
      exact absurd hok (by simp)
    | found i loc w =>
      simp only [hsr] at hok
      by_cases herr : w.error = 0
      · rw [if_pos herr] at hok
        injection hok with hok'
        exact Or.inr (Or.inr (Or.inl ⟨error, i, loc, w, rfl,
          search_wait_back_found p.events _ i loc w hsr, herr, by rw [← hok']⟩))
      · rw [if_neg herr] at hok
        exact absurd hok (by simp)
  | reapedChild child =>
    rw [applyMutation] at hok
    cases hre : p.notify_reaped child with
    | error e =>
      simp only [hre] at hok
      exact absurd hok (by simp)
    | ok r =>
      simp only [hre] at hok
      injection hok with hok'
      rw [Process.notify_reaped] at hre
      by_cases hz : child.state = PState.zombie
      · rw [if_pos hz] at hre
        cases hsr : search_wait_back p.events (start_index p.events.length) with
        | outOfBounds i =>
          simp only [hsr] at hre
          exact absurd hre (by simp)
        | found i loc w =>
          simp only [hsr] at hre
          by_cases herr : w.error = 0
          · rw [if_pos herr] at hre
            obtain ⟨r1, r2⟩ := r
            simp only [Except.ok.injEq, Prod.mk.injEq] at hre
            exact Or.inr (Or.inl ⟨child, i, loc, w, rfl,
              search_wait_back_found p.events _ i loc w hsr, herr,
              by rw [← hok', ← hre.1]⟩)
          · rw [if_neg herr] at hre
            exact absurd hre (by simp)
      · rw [if_neg hz] at hre
        exact absurd hre (by simp)
  | forked childPid =>
    rw [applyMutation, Process.notify_forked] at hok
    exact absurd hok (not_add_event_ok_of_dead p _ _ _ hdead)
  | exec file args errcode =>
    rw [applyMutation, Process.notify_exec] at hok
    cases hlast : p.events.getLast? with
    | none =>
      simp only [hlast] at hok
      exact absurd hok (not_add_event_ok_of_dead p _ _ _ hdead)
    | some e =>
      obtain ⟨eloc, ekind⟩ := e
      simp only [hlast] at hok
      split at hok
      next calls eargs =>
        by_cases h1 : execSucceeded calls = true ∨ ¬eargs = args
        · rw [if_pos h1] at hok
          exact absurd hok (not_add_event_ok_of_dead p _ _ _ hdead)
        · rw [if_neg h1] at hok
          by_cases h2 : get_base_name file ≠ get_base_name (execCallFile calls) ∨ ¬eargs = args
          · rw [if_pos h2] at hok
            exact absurd hok (not_add_event_ok_of_dead p _ _ _ hdead)
          · rw [if_neg h2] at hok
            injection hok with hok'
            have hsuccF : execSucceeded calls = false := by
              cases hsc : execSucceeded calls with
              | false => rfl
              | true => exact absurd (Or.inl hsc) h1
            exact Or.inr (Or.inr (Or.inr (Or.inr (Or.inl
              ⟨file, args, errcode, eloc, calls, eargs, rfl, hlast, hsuccF,
                by rw [← hok']⟩))))
      next =>
        exact absurd hok (not_add_event_ok_of_dead p _ _ _ hdead)
  | ended status =>
    rw [applyMutation, Process.notify_ended] at hok
    by_cases hex : WIFEXITED status = true
    · rw [if_pos hex] at hok
      cases hadd : p.add_event ⟨none, EventKind.exited (WEXITSTATUS status)⟩ false with
      | ok q => exact absurd hadd (not_add_event_ok_of_dead p _ _ _ hdead)
      | error e =>
        simp only [hadd] at hok
        exact absurd hok (by simp)
    · rw [if_neg hex] at hok
      by_cases hsig : WIFSIGNALED status = true
      · rw [if_pos hsig] at hok
        cases hlast : p.events.getLast? with
        | none =>
          simp only [hlast] at hok
          cases hadd : p.add_event ⟨none, EventKind.sig (-1) (WTERMSIG status) true⟩ false with
          | ok q => exact absurd hadd (not_add_event_ok_of_dead p _ _ _ hdead)
          | error e =>
            simp only [hadd] at hok
            exact absurd hok (by simp)
        | some e =>
          obtain ⟨eloc, ekind⟩ := e
          simp only [hlast] at hok
          split at hok
          next origin s k =>
            by_cases hmatch : s = (WTERMSIG status : Int)
            · rw [if_pos hmatch] at hok
              injection hok with hok'
              exact Or.inr (Or.inr (Or.inr (Or.inl
                ⟨status, eloc, origin, s, k, rfl, hlast, by rw [← hok']⟩)))
            · rw [if_neg hmatch] at hok
              cases hadd : p.add_event ⟨none, EventKind.sig (-1) (WTERMSIG status) true⟩ false with
              | ok q => exact absurd hadd (not_add_event_ok_of_dead p _ _ _ hdead)
              | error e =>
                simp only [hadd] at hok
                exact absurd hok (by simp)
          next =>
            cases hadd : p.add_event ⟨none, EventKind.sig (-1) (WTERMSIG status) true⟩ false with
            | ok q => exact absurd hadd (not_add_event_ok_of_dead p _ _ _ hdead)
            | error e =>
              simp only [hadd] at hok
              exact absurd hok (by simp)
      · rw [if_neg hsig] at hok
        exact absurd hok (by simp)
  | signaled sender signal =>
    rw [applyMutation, Process.notify_signaled] at hok
    exact absurd hok (not_add_event_ok_of_dead p _ _ _ hdead)
  | sentSignalSource killedId dest signal toThread =>
    rw [applyMutation] at hok
    cases dest with
    | none =>
      rw [Process.notify_sent_signal] at hok
      cases hadd : p.add_event ⟨none, EventKind.raiseSig killedId signal toThread⟩ true with
      | ok q => exact absurd hadd (not_add_event_ok_of_dead p _ _ _ hdead)
      | error e =>
        simp only [hadd] at hok
        exact absurd hok (by simp)
    | some d =>
      rw [Process.notify_sent_signal] at hok
      by_cases hcond : d.pid ≠ p.pid ∧ d.pid = killedId
      · rw [if_pos hcond] at hok
        cases hadd : p.add_event
            ⟨none, EventKind.kill ⟨p.pid, d.pid, signal, toThread⟩ true⟩ true with
        | ok q => exact absurd hadd (not_add_event_ok_of_dead p _ _ _ hdead)
        | error e =>
          simp only [hadd] at hok
          exact absurd hok (by simp)
      · rw [if_neg hcond] at hok
        cases hadd : p.add_event ⟨none, EventKind.raiseSig killedId signal toThread⟩ true with
        | ok q => exact absurd hadd (not_add_event_ok_of_dead p _ _ _ hdead)
        | error e =>
          simp only [hadd] at hok
          exact absurd hok (by simp)
  | sentSignalDest killedId source signal toThread =>
    rw [applyMutation, Process.notify_sent_signal] at hok
    by_cases hcond : p.pid ≠ source.pid ∧ p.pid = killedId
    · rw [if_pos hcond] at hok
      cases hadd : source.add_event
          ⟨none, EventKind.kill ⟨source.pid, p.pid, signal, toThread⟩ true⟩ true with
      | error e =>
        simp only [hadd] at hok
        exact absurd hok (by simp)
      | ok source' =>
        simp only [hadd] at hok
        have hd : p.dead = true := by
          simp [Process.dead, hdead]
        rw [if_pos hd] at hok
        cases hlast : p.events.getLast? with
        | none =>
          simp only [hlast] at hok
          exact absurd hok (by simp)
        | some death =>
          simp only [hlast] at hok
          injection hok with hok'
          exact Or.inr (Or.inr (Or.inr (Or.inr (Or.inr (Or.inr
            ⟨killedId, source, signal, toThread, death, rfl, hlast,
              by rw [← hok']⟩)))))
    · rw [if_neg hcond] at hok
      cases hadd : source.add_event ⟨none, EventKind.raiseSig killedId signal toThread⟩ true with
      | error e =>
        simp only [hadd] at hok
        exact absurd hok (by simp)
      | ok source' =>
        simp only [hadd] at hok
        injection hok with hok'
        exact Or.inl (by rw [← hok'])
  | orphaned =>
    rw [applyMutation, Process.notify_orphaned] at hok
    by_cases hz : p.state = PState.zombie
    · rw [if_pos hz] at hok
      injection hok with hok'
      exact Or.inl (by rw [← hok'])
    · rw [if_neg hz] at hok
      exact absurd hok (by simp)

/-- Witness for process_log_frozen_amended: notify_failed_wait on a zombie
process with a pending WaitEvent succeeds and writes the errno into that
event in place — the in-place update the amended claim lists for it. -/
theorem process_log_frozen_amended_witness :
    (mkProc 1 PState.zombie [⟨none, EventKind.wait ⟨-1, 0, false⟩⟩]).state ≠ PState.alive
  ∧ applyMutation (mkProc 1 PState.zombie [⟨none, EventKind.wait ⟨-1, 0, false⟩⟩])
      (Mutation.failedWait 4) =
      Except.ok (mkProc 1 PState.zombie [⟨none, EventKind.wait ⟨-1, 4, false⟩⟩])
  ∧ FrozenLogUpdate (mkProc 1 PState.zombie [⟨none, EventKind.wait ⟨-1, 0, false⟩⟩])
      (mkProc 1 PState.zombie [⟨none, EventKind.wait ⟨-1, 4, false⟩⟩])
      (Mutation.failedWait 4) :=
  ⟨by decide, rfl,
    process_log_frozen_amended _ (Mutation.failedWait 4) _ (by decide) rfl⟩

/-- One Drawer step sets the truncated flag exactly when the operation
either crosses leftward of the x-extent (lane start or backtrack) or runs
past the right edge of the window (draw_char, draw_string). -/
theorem drawer_step_truncated (d : Drawer) (op : DrawOp) :
    (d.step op).truncated = (d.truncated || (leftCross d op || rightOverflow d op)) := by
  cases op with
  | startLane lane => simp [Drawer.step, leftCross, rightOverflow]
  | startLine line => simp [Drawer.step, leftCross, rightOverflow]
  | backtrack steps => simp [Drawer.step, leftCross, rightOverflow]
  | drawChar count =>
    simp only [Drawer.step, leftCross, rightOverflow]
    split_ifs with h <;> simp [h]
  | drawString len =>
    simp only [Drawer.step, leftCross, rightOverflow]
    split_ifs with h <;> simp [h]
  | drawLink => simp [Drawer.step, leftCross, rightOverflow]

/-- Claim C7, counterexample: a draw_char at the right edge of the window
sets the truncated flag although no lane start or backtrack ever moved the
cursor left of the x-extent, refuting the claimed "only if" direction. -/
theorem drawer_truncated_without_left_cross :
    ((Drawer.mk0 1 1).run
        [DrawOp.startLine 0, DrawOp.startLane 0, DrawOp.drawChar 1, DrawOp.drawChar 1]).truncated
      = true
  ∧ anyAlongRun leftCross (Drawer.mk0 1 1)
      [DrawOp.startLine 0, DrawOp.startLane 0, DrawOp.drawChar 1, DrawOp.drawChar 1] = false :=
  ⟨rfl, rfl⟩

/-- Claim C7, amended: after any run of drawing operations, the truncated
flag is set iff it was already set or some operation along the run either
moved the cursor (by a lane start or a backtrack) left of the x-extent
already reached on that line, or overran the right edge of the window (a
draw_char starting at or past the width, or a draw_string extending past
it). -/
theorem drawer_truncated_iff (d : Drawer) (ops : List DrawOp) :
    (d.run ops).truncated =
      (d.truncated ||
        anyAlongRun (fun s op => leftCross s op || rightOverflow s op) d ops) := by
  induction ops generalizing d with
  | nil => simp [Drawer.run, anyAlongRun]
  | cons op rest ih =>
    rw [Drawer.run, anyAlongRun, ih, drawer_step_truncated]
    cases d.truncated <;> cases leftCross d op <;> cases rightOverflow d op <;> simp

/-! ### Association-list lemmas for the diagram's path map -/

theorem lookupPath_mem (ps : Paths) (k : ProcId) (pa : DPath)
    (h : lookupPath ps k = some pa) : (k, pa) ∈ ps := by
  induction ps with
  | nil => exact absurd h (by simp [lookupPath])
  | cons kv rest ih =>
    obtain ⟨j, q⟩ := kv
    rw [lookupPath] at h
    by_cases hj : j = k
    · rw [if_pos hj] at h
      injection h with h'
      subst hj
      subst h'
      exact List.mem_cons_self _ _
    · rw [if_neg hj] at h
      exact List.mem_cons_of_mem _ (ih h)

theorem lookupPath_eq_none_iff (ps : Paths) (k : ProcId) :
    lookupPath ps k = none ↔ k ∉ ps.map Prod.fst := by
  induction ps with
  | nil => simp [lookupPath]
  | cons kv rest ih =>
    obtain ⟨j, q⟩ := kv
    rw [lookupPath]
    by_cases hj : j = k
    · subst hj
      simp
    · rw [if_neg hj]
      simp [ih, Ne.symm hj]

theorem mem_lookupPath (ps : Paths) (k : ProcId) (pa : DPath)
    (hnd : (ps.map Prod.fst).Nodup) (h : (k, pa) ∈ ps) :
    lookupPath ps k = some pa := by
  induction ps with
  | nil => exact absurd h (by simp)
  | cons kv rest ih =>
    obtain ⟨j, q⟩ := kv
    rw [List.map_cons, List.nodup_cons] at hnd
    rcases List.mem_cons.mp h with h1 | h1
    · injection h1 with h1a h1b
      subst h1a
      subst h1b
      rw [lookupPath, if_pos rfl]
    · rw [lookupPath]
      by_cases hj : j = k
      · exfalso
        subst hj
        exact hnd.1 (List.mem_map.mpr ⟨(j, pa), h1, rfl⟩)
      · rw [if_neg hj]
        exact ih hnd.2 h1

theorem setPath_keys (ps : Paths) (k : ProcId) (pa : DPath) :
    (setPath ps k pa).map Prod.fst = ps.map Prod.fst := by
  induction ps with
  | nil => rfl
  | cons kv rest ih =>
    obtain ⟨j, q⟩ := kv
    rw [setPath]
    by_cases hj : j = k
    · rw [if_pos hj]
      simp [hj]
    · rw [if_neg hj]
      simp [ih]

theorem mem_setPath (ps : Paths) (k : ProcId) (pa : DPath) (j : ProcId) (q : DPath)
    (h : (j, q) ∈ setPath ps k pa) : (j, q) ∈ ps ∨ (j = k ∧ q = pa) := by
  induction ps with
  | nil => exact absurd h (by simp [setPath])
  | cons kv rest ih =>
    obtain ⟨j0, q0⟩ := kv
    rw [setPath] at h
    by_cases hj : j0 = k
    · rw [if_pos hj] at h
      rcases List.mem_cons.mp h with h1 | h1
      · injection h1 with h1a h1b
        right
        exact ⟨h1a ▸ hj ▸ rfl, h1b⟩
      · exact Or.inl (List.mem_cons_of_mem _ h1)
    · rw [if_neg hj] at h
      rcases List.mem_cons.mp h with h1 | h1
      · exact Or.inl (h1 ▸ List.mem_cons_self _ _)
      · rcases ih h1 with h2 | h2
        · exact Or.inl (List.mem_cons_of_mem _ h2)
        · exact Or.inr h2

theorem lookupPath_setPath_ne (ps : Paths) (k : ProcId) (pa : DPath) (j : ProcId)
    (hj : j ≠ k) : lookupPath (setPath ps k pa) j = lookupPath ps j := by
  induction ps with
  | nil => rfl
  | cons kv rest ih =>
    obtain ⟨j0, q0⟩ := kv
    rw [setPath]
    by_cases h0 : j0 = k
    · rw [if_pos h0, lookupPath, lookupPath]
      have hne : ¬(j0 = j) := by
        rw [h0]
        exact fun hh => hj hh.symm
      rw [if_neg hne, if_neg hne]
    · rw [if_neg h0, lookupPath, lookupPath, ih]

theorem lookupPath_setPath_self (ps : Paths) (k : ProcId) (pa : DPath)
    (h : (lookupPath ps k).isSome) :
    lookupPath (setPath ps k pa) k = some pa := by
  induction ps with
  | nil => exact absurd h (by simp [lookupPath])
  | cons kv rest ih =>
    obtain ⟨j0, q0⟩ := kv
    rw [setPath]
    by_cases h0 : j0 = k
    · rw [if_pos h0, lookupPath, if_pos h0]
    · rw [if_neg h0, lookupPath, if_neg h0]
      rw [lookupPath, if_neg h0] at h
      exact ih h

theorem lookupPath_insertPath_self (ps : Paths) (k : ProcId) (pa : DPath)
    (h : lookupPath ps k = none) :
    lookupPath (insertPath ps k pa) k = some pa := by
  induction ps with
  | nil => simp [insertPath, lookupPath]
  | cons kv rest ih =>
    obtain ⟨j0, q0⟩ := kv
    rw [lookupPath] at h
    by_cases h0 : j0 = k
    · rw [if_pos h0] at h
      exact absurd h (by simp)
    · rw [if_neg h0] at h
      rw [insertPath, List.cons_append, lookupPath, if_neg h0]
      exact ih h

theorem lookupPath_insertPath_ne (ps : Paths) (k : ProcId) (pa : DPath)
    (j : ProcId) (hj : j ≠ k) :
    lookupPath (insertPath ps k pa) j = lookupPath ps j := by
  induction ps with
  | nil =>
    simp only [insertPath, List.nil_append, lookupPath]
    rw [if_neg (show ¬(k = j) from fun hh => hj hh.symm)]
  | cons kv rest ih =>
    obtain ⟨j0, q0⟩ := kv
    rw [insertPath, List.cons_append, lookupPath, lookupPath]
    by_cases h0 : j0 = j
    · rw [if_pos h0, if_pos h0]
    · rw [if_neg h0, if_neg h0]
      exact ih

theorem insertPath_keys (ps : Paths) (k : ProcId) (pa : DPath) :
    (insertPath ps k pa).map Prod.fst = ps.map Prod.fst ++ [k] := by
  simp [insertPath]

theorem mem_insertPath (ps : Paths) (k : ProcId) (pa : DPath) (j : ProcId) (q : DPath)
    (h : (j, q) ∈ insertPath ps k pa) : (j, q) ∈ ps ∨ (j = k ∧ q = pa) := by
  rw [insertPath] at h
  rcases List.mem_append.mp h with h1 | h1
  · exact Or.inl h1
  · right
    rcases List.mem_singleton.mp h1 with h2
    exact ⟨congrArg Prod.fst h2, congrArg Prod.snd h2⟩

/-! ### Reachability along fork edges, and shape preservation -/

/-- c is reachable from p by following fork events in the arena.  Every
path the line-construction pass creates belongs to a process reachable from
the leader this way, and the lane-allocation recursion visits exactly these
processes. -/
inductive ForkReachFrom (arena : Arena) : ProcId → ProcId → Prop where
  | refl (p : ProcId) : ForkReachFrom arena p p
  | head (p c q : ProcId) (dp : DProc) : arena.get? p = some dp →
      DEvent.fork c ∈ dp.events → ForkReachFrom arena c q → ForkReachFrom arena p q

/-- Reachability extends along a trailing fork edge. -/
theorem ForkReachFrom.snoc (arena : Arena) (a b c : ProcId) (dp : DProc)
    (h : ForkReachFrom arena a b) :
    arena.get? b = some dp → DEvent.fork c ∈ dp.events → ForkReachFrom arena a c := by
  induction h with
  | refl p =>
    intro hb hc
    exact ForkReachFrom.head p c c dp hb hc (ForkReachFrom.refl c)
  | head p c0 q dp0 h1 h2 h3 ih =>
    intro hb hc
    exact ForkReachFrom.head p c0 c dp0 h1 h2 (ih hb hc)

/-- The (startLine, endLine, lane) part of a path. -/
def DPath.shape (pa : DPath) : Int × Int × Int := (pa.startLine, pa.endLine, pa.lane)

/-- Two path maps with the same keys and the same shapes (only the
killPartner fields may differ). -/
def ShapeEq (ps ps' : Paths) : Prop :=
  ps'.map Prod.fst = ps.map Prod.fst ∧
  ∀ j, Option.map DPath.shape (lookupPath ps' j) = Option.map DPath.shape (lookupPath ps j)

theorem shapeEq_refl (ps : Paths) : ShapeEq ps ps := ⟨rfl, fun _ => rfl⟩

theorem shapeEq_trans (a b c : Paths) (h1 : ShapeEq a b) (h2 : ShapeEq b c) :
    ShapeEq a c :=
  ⟨h2.1.trans h1.1, fun j => (h2.2 j).trans (h1.2 j)⟩

theorem shapeEq_lookup (ps ps' : Paths) (h : ShapeEq ps ps') (k : ProcId) (pa' : DPath)
    (hl : lookupPath ps' k = some pa') :
    ∃ pa, lookupPath ps k = some pa ∧ pa'.startLine = pa.startLine
      ∧ pa'.endLine = pa.endLine ∧ pa'.lane = pa.lane := by
  have hj := h.2 k
  rw [hl] at hj
  cases hl2 : lookupPath ps k with
  | none =>
    rw [hl2] at hj
    simp at hj
  | some pa =>
    rw [hl2] at hj
    simp only [Option.map_some'] at hj
    injection hj with hj'
    refine ⟨pa, rfl, ?_, ?_, ?_⟩
    · exact congrArg Prod.fst hj'
    · exact congrArg (fun x => x.snd.fst) hj'
    · exact congrArg (fun x => x.snd.snd) hj'

theorem shapeEq_isSome (ps ps' : Paths) (h : ShapeEq ps ps') (k : ProcId) :
    (lookupPath ps' k).isSome → (lookupPath ps k).isSome := by
  intro hs
  cases hl : lookupPath ps' k with
  | none => rw [hl] at hs; simp at hs
  | some pa' =>
    obtain ⟨pa, hpa, _⟩ := shapeEq_lookup ps ps' h k pa' hl
    rw [hpa]
    rfl

theorem shapeEq_setPath_killPartner (ps : Paths) (k : ProcId) (pa : DPath)
    (x : Option ProcId) (h : lookupPath ps k = some pa) :
    ShapeEq ps (setPath ps k { pa with killPartner := x }) := by
  refine ⟨setPath_keys ps k _, fun j => ?_⟩
  by_cases hj : j = k
  · subst hj
    rw [lookupPath_setPath_self ps j _ (by rw [h]; rfl), h]
    rfl
  · rw [lookupPath_setPath_ne ps k _ j hj]

/-- noteKillPartner changes only killPartner fields of the path map. -/
theorem noteKillPartner_shape (paths : Paths) (proc : ProcId) (e : DEvent)
    (paths' : Paths) (h : noteKillPartner paths proc e = some paths') :
    ShapeEq paths paths' := by
  cases e <;>
    try (simp only [noteKillPartner, Option.some.injEq] at h
         exact h ▸ shapeEq_refl paths)
  next partner sender =>
    simp only [noteKillPartner] at h
    cases hl : lookupPath paths proc with
    | none =>
      simp only [hl] at h
      exact Option.noConfusion h
    | some pa =>
      simp only [hl] at h
      by_cases hkp : pa.killPartner = none
      · rw [if_pos hkp] at h
        injection h with h'
        exact h' ▸ shapeEq_setPath_killPartner paths proc pa _ hl
      · rw [if_neg hkp] at h
        exact Option.noConfusion h

/-- get_next_event_loop changes only killPartner fields of the path map. -/
theorem get_next_event_loop_shape (opts : DOptions) (proc : ProcId) :
    ∀ events paths i paths' r,
      get_next_event_loop opts proc paths events i = some (paths', r) →
      ShapeEq paths paths' := by
  intro events
  induction events with
  | nil =>
    intro paths i paths' r h
    rw [get_next_event_loop] at h
    simp only [Option.some.injEq, Prod.mk.injEq] at h
    exact h.1 ▸ shapeEq_refl paths
  | cons e rest ih =>
    intro paths i paths' r h
    rw [get_next_event_loop] at h
    by_cases hs : skipEvent opts e = true
    · rw [if_pos hs] at h
      exact ih paths (i + 1) paths' r h
    · rw [if_neg hs] at h
      cases hk : noteKillPartner paths proc e with
      | none => rw [hk] at h; simp at h
      | some paths2 =>
        rw [hk] at h
        simp only [Option.map_some', Option.some.injEq, Prod.mk.injEq] at h
        exact h.1 ▸ noteKillPartner_shape paths proc e paths2 hk

/-- get_next_event changes only killPartner fields. -/
theorem get_next_event_shape (arena : Arena) (opts : DOptions) (paths : Paths)
    (proc : ProcId) (start : Nat) (paths' : Paths) (r : Int)
    (h : get_next_event arena opts paths proc start = some (paths', r)) :
    ShapeEq paths paths' := by
  rw [get_next_event] at h
  cases ha : arena.get? proc with
  | none =>
    simp only [ha] at h
    exact Option.noConfusion h
  | some dp =>
    simp only [ha] at h
    exact get_next_event_loop_shape opts proc _ paths start paths' r h

/-- get_successor changes only killPartner fields. -/
theorem get_successor_shape (arena : Arena) (opts : DOptions) (paths : Paths)
    (prev : DNode) (paths' : Paths) (n : DNode)
    (h : get_successor arena opts paths prev = some (paths', n)) :
    ShapeEq paths paths' ∧ n.proc = prev.proc := by
  rw [get_successor] at h
  by_cases hn : prev.next = -1
  · rw [if_pos hn] at h
    simp only [Option.some.injEq, Prod.mk.injEq] at h
    exact ⟨h.1 ▸ shapeEq_refl paths, h.2 ▸ rfl⟩
  · rw [if_neg hn] at h
    cases ha : arena.get? prev.proc with
    | none =>
      simp only [ha] at h
      exact Option.noConfusion h
    | some dp =>
      simp only [ha] at h
      cases he : dp.events.get? prev.next.toNat with
      | none =>
        simp only [he] at h
        exact Option.noConfusion h
      | some e =>
        simp only [he] at h
        cases hg : get_next_event arena opts paths prev.proc (prev.next.toNat + 1) with
        | none =>
          simp only [hg] at h
          exact Option.noConfusion h
        | some pr =>
          obtain ⟨ps2, nxt⟩ := pr
          simp only [hg] at h
          simp only [Option.some.injEq, Prod.mk.injEq] at h
          exact ⟨h.1 ▸ get_next_event_shape arena opts paths prev.proc _ ps2 nxt hg,
            h.2 ▸ rfl⟩

/-- start_path changes only killPartner fields, and the produced node
belongs to the given process. -/
theorem start_path_shape (arena : Arena) (opts : DOptions) (paths : Paths)
    (proc : ProcId) (paths' : Paths) (n : DNode)
    (h : start_path arena opts paths proc = some (paths', n)) :
    ShapeEq paths paths' ∧ n.proc = proc := by
  rw [start_path] at h
  cases hg : get_next_event arena opts paths proc 0 with
  | none =>
    simp only [hg] at h
    exact Option.noConfusion h
  | some pr =>
    obtain ⟨ps2, nxt⟩ := pr
    simp only [hg] at h
    simp only [Option.some.injEq, Prod.mk.injEq] at h
    exact ⟨h.1 ▸ get_next_event_shape arena opts paths proc 0 ps2 nxt hg, h.2 ▸ rfl⟩

/-! ### Pass-1 invariants of the line-construction pass -/

/-- The bounds the line-construction pass maintains for one path while the
line count is L: the start line is a real line index not past L, the lane
is still unassigned, and the end line is either unset or between the start
line and L. -/
def PathBounds (L : Int) (pa : DPath) : Prop :=
  0 ≤ pa.startLine ∧ pa.startLine ≤ L ∧ pa.lane = -1 ∧
    (pa.endLine = -1 ∨ (pa.startLine ≤ pa.endLine ∧ pa.endLine ≤ L))

/-- Every path in the map satisfies the bounds and belongs to a process
fork-reachable from the leader. -/
def PathsInv (arena : Arena) (leader : ProcId) (L : Int) (paths : Paths) : Prop :=
  ∀ k pa, lookupPath paths k = some pa →
    PathBounds L pa ∧ ForkReachFrom arena leader k

/-- Every path whose end line is still unset has a node among the given
nodes. -/
def NodesCover (paths : Paths) (nodes : List DNode) : Prop :=
  ∀ k pa, lookupPath paths k = some pa → pa.endLine = -1 →
    ∃ n, n ∈ nodes ∧ n.proc = k

theorem pathBounds_mono (L L' : Int) (pa : DPath) (h : L ≤ L')
    (hb : PathBounds L pa) : PathBounds L' pa := by
  obtain ⟨h1, h2, h3, h4⟩ := hb
  refine ⟨h1, le_trans h2 h, h3, ?_⟩
  rcases h4 with h4 | ⟨h4a, h4b⟩
  · exact Or.inl h4
  · exact Or.inr ⟨h4a, le_trans h4b h⟩

theorem pathsInv_mono (arena : Arena) (leader : ProcId) (L L' : Int)
    (paths : Paths) (h : L ≤ L') (hinv : PathsInv arena leader L paths) :
    PathsInv arena leader L' paths := by
  intro k pa hl
  obtain ⟨hb, hr⟩ := hinv k pa hl
  exact ⟨pathBounds_mono L L' pa h hb, hr⟩

theorem pathsInv_shapeEq (arena : Arena) (leader : ProcId) (L : Int)
    (ps ps' : Paths) (hs : ShapeEq ps ps') (h : PathsInv arena leader L ps) :
    PathsInv arena leader L ps' := by
  intro k pa' hl
  obtain ⟨pa, hpa, h1, h2, h3⟩ := shapeEq_lookup ps ps' hs k pa' hl
  obtain ⟨hb, hr⟩ := h k pa hpa
  refine ⟨?_, hr⟩
  unfold PathBounds
  rw [h1, h2, h3]
  exact hb

theorem nodesCover_shapeEq (ps ps' : Paths) (nodes : List DNode)
    (hs : ShapeEq ps ps') (h : NodesCover ps nodes) : NodesCover ps' nodes := by
  intro k pa' hl hend
  obtain ⟨pa, hpa, _, h2, _⟩ := shapeEq_lookup ps ps' hs k pa' hl
  exact h k pa hpa (by rw [← h2]; exact hend)

theorem nodesCover_subset (ps : Paths) (ns ns' : List DNode)
    (hsub : ∀ n, n ∈ ns → n ∈ ns') (h : NodesCover ps ns) : NodesCover ps ns' := by
  intro k pa hl hend
  obtain ⟨n, hn, hp⟩ := h k pa hl hend
  exact ⟨n, hsub n hn, hp⟩

/-- A pending event returned by Node::next_event really occurs in the
owning process's event list. -/
theorem node_next_event_some (arena : Arena) (n : DNode) (e : DEvent)
    (h : node_next_event arena n = some e) :
    ∃ dp, arena.get? n.proc = some dp ∧ e ∈ dp.events := by
  rw [node_next_event] at h
  by_cases h1 : n.next = -1
  · rw [if_pos h1] at h
    exact Option.noConfusion h
  · rw [if_neg h1] at h
    cases ha : arena.get? n.proc with
    | none =>
      simp only [ha] at h
      exact Option.noConfusion h
    | some dp =>
      simp only [ha] at h
      exact ⟨dp, rfl, List.get?_mem h⟩

/-- Diagram::_do_link_event preserves the pass-1 invariant, only extends
the current line, always gives the previous node's process a node on the
extended line, and creates unfinished paths only with a node on the line. -/
theorem do_link_event_inv (arena : Arena) (opts : DOptions) (leader : ProcId)
    (prevLine : List DNode) (lineNum : Int) (paths : Paths) (curLine : List DNode)
    (prevNode : DNode) (ev : DEvent) (paths' : Paths) (curLine' : List DNode)
    (ee : Option ProcId)
    (h : do_link_event arena opts prevLine lineNum paths curLine prevNode ev
        = some (paths', curLine', ee))
    (hL : 0 ≤ lineNum)
    (hinv : PathsInv arena leader lineNum paths)
    (hev : ∀ c, ev = DEvent.fork c →
      ∃ dp, arena.get? prevNode.proc = some dp ∧ DEvent.fork c ∈ dp.events)
    (hproc : (lookupPath paths prevNode.proc).isSome) :
    PathsInv arena leader lineNum paths' ∧
    (∀ n, n ∈ curLine → n ∈ curLine') ∧
    (∃ n, n ∈ curLine' ∧ n.proc = prevNode.proc) ∧
    (∀ k pa', lookupPath paths' k = some pa' → pa'.endLine = -1 →
      k = prevNode.proc ∨ (∃ n, n ∈ curLine' ∧ n.proc = k) ∨
      ∃ pa, lookupPath paths k = some pa ∧ pa.endLine = -1) := by
  cases ev with
  | fork child =>
    simp only [do_link_event] at h
    by_cases hch : (lookupPath paths child).isSome
    · rw [if_pos hch] at h
      exact Option.noConfusion h
    · rw [if_neg hch] at h
      have hnone : lookupPath paths child = none :=
        Option.not_isSome_iff_eq_none.mp hch
      cases hgs : get_successor arena opts
          (insertPath paths child ⟨lineNum, -1, -1, none⟩) prevNode with
      | none =>
        simp only [hgs] at h
        exact Option.noConfusion h
      | some pr =>
        obtain ⟨paths2, succ⟩ := pr
        simp only [hgs] at h
        cases hsp : start_path arena opts paths2 child with
        | none =>
          simp only [hsp] at h
          exact Option.noConfusion h
        | some pr2 =>
          obtain ⟨paths3, startN⟩ := pr2
          simp only [hsp, Option.some.injEq, Prod.mk.injEq] at h
          obtain ⟨h1, h2, h3⟩ := h
          subst h1
          subst h2
          obtain ⟨pp0, hpp0⟩ := Option.isSome_iff_exists.mp hproc
          have hreachp : ForkReachFrom arena leader prevNode.proc :=
            (hinv prevNode.proc pp0 hpp0).2
          obtain ⟨dp, hdp, hdpm⟩ := hev child rfl
          have hreachc : ForkReachFrom arena leader child :=
            ForkReachFrom.snoc arena leader prevNode.proc child dp hreachp hdp hdpm
          have hinv1 : PathsInv arena leader lineNum
              (insertPath paths child ⟨lineNum, -1, -1, none⟩) := by
            intro k pa hl
            by_cases hk : k = child
            · subst hk
              rw [lookupPath_insertPath_self paths k _ hnone] at hl
              injection hl with hl'
              subst hl'
              exact ⟨⟨hL, le_refl _, rfl, Or.inl rfl⟩, hreachc⟩
            · rw [lookupPath_insertPath_ne paths child _ k hk] at hl
              exact hinv k pa hl
          have hsh2 := get_successor_shape arena opts _ prevNode paths2 succ hgs
          have hsh3 := start_path_shape arena opts paths2 child paths3 startN hsp
          have hsh : ShapeEq (insertPath paths child ⟨lineNum, -1, -1, none⟩) paths3 :=
            shapeEq_trans _ _ _ hsh2.1 hsh3.1
          refine ⟨pathsInv_shapeEq arena leader lineNum _ _ hsh hinv1, ?_, ?_, ?_⟩
          · intro n hn
            exact List.mem_append_left _ hn
          · exact ⟨succ, List.mem_append_right _ (List.mem_cons_self _ _), hsh2.2⟩
          · intro k pa' hl hend
            obtain ⟨pa1, hpa1, _, he1, _⟩ := shapeEq_lookup _ paths3 hsh k pa' hl
            by_cases hk : k = child
            · refine Or.inr (Or.inl ⟨startN, ?_, hk ▸ hsh3.2⟩)
              exact List.mem_append_right _ (List.mem_cons_of_mem _ (List.mem_cons_self _ _))
            · rw [lookupPath_insertPath_ne paths child _ k hk] at hpa1
              exact Or.inr (Or.inr ⟨pa1, hpa1, by rw [← he1]; exact hend⟩)
  | reap child =>
    simp only [do_link_event] at h
    cases hlc : lookupPath paths child with
    | none =>
      simp only [hlc] at h
      exact Option.noConfusion h
    | some childPath =>
      simp only [hlc] at h
      cases hrd : path_ready_to_end arena prevLine child with
      | false =>
        rw [hrd] at h
        rw [if_pos (by rfl : (!false) = true)] at h
        simp only [Option.some.injEq, Prod.mk.injEq] at h
        obtain ⟨h1, h2, h3⟩ := h
        subst h1
        subst h2
        refine ⟨hinv, fun n hn => List.mem_append_left _ hn,
          ⟨continue_path prevNode, List.mem_append_right _ (List.mem_cons_self _ _), rfl⟩,
          ?_⟩
        intro k pa' hl hend
        exact Or.inr (Or.inr ⟨pa', hl, hend⟩)
      | true =>
        rw [hrd] at h
        rw [if_neg (by simp : ¬((!true) = true))] at h
        cases hgs : get_successor arena opts
            (setPath paths child { childPath with endLine := lineNum }) prevNode with
        | none =>
          simp only [hgs] at h
          exact Option.noConfusion h
        | some pr =>
          obtain ⟨paths2, succ⟩ := pr
          simp only [hgs, Option.some.injEq, Prod.mk.injEq] at h
          obtain ⟨h1, h2, h3⟩ := h
          subst h1
          subst h2
          have hsh2 := get_successor_shape arena opts _ prevNode paths2 succ hgs
          obtain ⟨hbc, hrc⟩ := hinv child childPath hlc
          have hinv1 : PathsInv arena leader lineNum
              (setPath paths child { childPath with endLine := lineNum }) := by
            intro k pa hl
            by_cases hk : k = child
            · subst hk
              rw [lookupPath_setPath_self paths k _ (by rw [hlc]; rfl)] at hl
              injection hl with hl'
              subst hl'
              exact ⟨⟨hbc.1, hbc.2.1, hbc.2.2.1, Or.inr ⟨hbc.2.1, le_refl _⟩⟩, hrc⟩
            · rw [lookupPath_setPath_ne paths child _ k hk] at hl
              exact hinv k pa hl
          refine ⟨pathsInv_shapeEq arena leader lineNum _ _ hsh2.1 hinv1,
            fun n hn => List.mem_append_left _ hn,
            ⟨succ, List.mem_append_right _ (List.mem_cons_self _ _), hsh2.2⟩, ?_⟩
          intro k pa' hl hend
          obtain ⟨pa1, hpa1, _, he1, _⟩ := shapeEq_lookup _ paths2 hsh2.1 k pa' hl
          by_cases hk : k = child
          · subst hk
            rw [lookupPath_setPath_self paths k _ (by rw [hlc]; rfl)] at hpa1
            injection hpa1 with hpa1'
            exfalso
            have : pa1.endLine = lineNum := by rw [← hpa1']
            rw [he1, this] at hend
            omega
          · rw [lookupPath_setPath_ne paths child _ k hk] at hpa1
            exact Or.inr (Or.inr ⟨pa1, hpa1, by rw [← he1]; exact hend⟩)
  | kill partner sender =>
    simp only [do_link_event] at h
    cases hlp : lookupPath paths partner with
    | none =>
      simp only [hlp, Option.some.injEq, Prod.mk.injEq] at h
      obtain ⟨h1, h2, h3⟩ := h
      subst h1
      subst h2
      refine ⟨hinv, fun n hn => List.mem_append_left _ hn,
        ⟨continue_path prevNode, List.mem_append_right _ (List.mem_cons_self _ _), rfl⟩,
        ?_⟩
      intro k pa' hl hend
      exact Or.inr (Or.inr ⟨pa', hl, hend⟩)
    | some pp =>
      simp only [hlp] at h
      cases hlm : lookupPath paths prevNode.proc with
      | none =>
        simp only [hlm] at h
        exact Option.noConfusion h
      | some myPath =>
        simp only [hlm] at h
        by_cases hmk : myPath.killPartner = none
        · rw [if_pos hmk] at h
          by_cases hpk : pp.killPartner ≠ none
          · rw [if_pos hpk] at h
            exact Option.noConfusion h
          · rw [if_neg hpk] at h
            cases hgs : get_successor arena opts paths prevNode with
            | none =>
              simp only [hgs] at h
              exact Option.noConfusion h
            | some pr =>
              obtain ⟨paths2, succ⟩ := pr
              simp only [hgs, Option.some.injEq, Prod.mk.injEq] at h
              obtain ⟨h1, h2, h3⟩ := h
              subst h1
              subst h2
              have hsh2 := get_successor_shape arena opts paths prevNode paths2 succ hgs
              refine ⟨pathsInv_shapeEq arena leader lineNum _ _ hsh2.1 hinv,
                fun n hn => List.mem_append_left _ hn,
                ⟨succ, List.mem_append_right _ (List.mem_cons_self _ _), hsh2.2⟩, ?_⟩
              intro k pa' hl hend
              obtain ⟨pa1, hpa1, _, he1, _⟩ := shapeEq_lookup _ paths2 hsh2.1 k pa' hl
              exact Or.inr (Or.inr ⟨pa1, hpa1, by rw [← he1]; exact hend⟩)
        · rw [if_neg hmk] at h
          by_cases hpk : pp.killPartner ≠ some prevNode.proc
          · rw [if_pos hpk] at h
            simp only [Option.some.injEq, Prod.mk.injEq] at h
            obtain ⟨h1, h2, h3⟩ := h
            subst h1
            subst h2
            refine ⟨hinv, fun n hn => List.mem_append_left _ hn,
              ⟨continue_path prevNode, List.mem_append_right _ (List.mem_cons_self _ _), rfl⟩,
              ?_⟩
            intro k pa' hl hend
            exact Or.inr (Or.inr ⟨pa', hl, hend⟩)
          · rw [if_neg hpk] at h
            have hsh1 : ShapeEq paths (setPath paths partner { pp with killPartner := none }) :=
              shapeEq_setPath_killPartner paths partner pp none hlp
            cases hlm2 : lookupPath (setPath paths partner { pp with killPartner := none })
                prevNode.proc with
            | none =>
              simp only [hlm2] at h
              cases hgs : get_successor arena opts
                  (setPath paths partner { pp with killPartner := none }) prevNode with
              | none =>
                simp only [hgs] at h
                exact Option.noConfusion h
              | some pr =>
                obtain ⟨paths3, succ⟩ := pr
                simp only [hgs, Option.some.injEq, Prod.mk.injEq] at h
                obtain ⟨h1, h2, h3⟩ := h
                subst h1
                subst h2
                have hsh3 := get_successor_shape arena opts _ prevNode paths3 succ hgs
                have hsh : ShapeEq paths paths3 := shapeEq_trans _ _ _ hsh1 hsh3.1
                refine ⟨pathsInv_shapeEq arena leader lineNum _ _ hsh hinv,
                  fun n hn => List.mem_append_left _ hn,
                  ⟨succ, List.mem_append_right _ (List.mem_cons_self _ _), hsh3.2⟩, ?_⟩
                intro k pa' hl hend
                obtain ⟨pa1, hpa1, _, he1, _⟩ := shapeEq_lookup _ paths3 hsh k pa' hl
                exact Or.inr (Or.inr ⟨pa1, hpa1, by rw [← he1]; exact hend⟩)
            | some pa0 =>
              simp only [hlm2] at h
              have hsh2 : ShapeEq (setPath paths partner { pp with killPartner := none })
                  (setPath (setPath paths partner { pp with killPartner := none })
                    prevNode.proc { pa0 with killPartner := none }) :=
                shapeEq_setPath_killPartner _ prevNode.proc pa0 none hlm2
              cases hgs : get_successor arena opts
                  (setPath (setPath paths partner { pp with killPartner := none })
                    prevNode.proc { pa0 with killPartner := none }) prevNode with
              | none =>
                simp only [hgs] at h
                exact Option.noConfusion h
              | some pr =>
                obtain ⟨paths3, succ⟩ := pr
                simp only [hgs, Option.some.injEq, Prod.mk.injEq] at h
                obtain ⟨h1, h2, h3⟩ := h
                subst h1
                subst h2
                have hsh3 := get_successor_shape arena opts _ prevNode paths3 succ hgs
                have hsh : ShapeEq paths paths3 :=
                  shapeEq_trans _ _ _ hsh1 (shapeEq_trans _ _ _ hsh2 hsh3.1)
                refine ⟨pathsInv_shapeEq arena leader lineNum _ _ hsh hinv,
                  fun n hn => List.mem_append_left _ hn,
                  ⟨succ, List.mem_append_right _ (List.mem_cons_self _ _), hsh3.2⟩, ?_⟩
                intro k pa' hl hend
                obtain ⟨pa1, hpa1, _, he1, _⟩ := shapeEq_lookup _ paths3 hsh k pa' hl
                exact Or.inr (Or.inr ⟨pa1, hpa1, by rw [← he1]; exact hend⟩)
  | wait =>
    simp only [do_link_event] at h
    exact Option.noConfusion h
  | exec succeeded =>
    simp only [do_link_event] at h
    exact Option.noConfusion h
  | raiseSig =>
    simp only [do_link_event] at h
    exact Option.noConfusion h
  | sig killed =>
    simp only [do_link_event] at h
    exact Option.noConfusion h
  | exited =>
    simp only [do_link_event] at h
    exact Option.noConfusion h

theorem setPath_of_absent (ps : Paths) (k : ProcId) (pa : DPath)
    (h : lookupPath ps k = none) : setPath ps k pa = ps := by
  induction ps with
  | nil => rfl
  | cons kv rest ih =>
    obtain ⟨j, q⟩ := kv
    rw [lookupPath] at h
    rw [setPath]
    by_cases hj : j = k
    · rw [if_pos hj] at h
      exact Option.noConfusion h
    · rw [if_neg hj] at h
      rw [if_neg hj, ih h]

theorem lookup_setPath_back (ps : Paths) (proc : ProcId) (pa1 : DPath)
    (k : ProcId) (pa' : DPath)
    (h : lookupPath (setPath ps proc pa1) k = some pa') :
    (k = proc ∧ pa' = pa1) ∨ lookupPath ps k = some pa' := by
  by_cases hk : k = proc
  · subst hk
    by_cases hs : (lookupPath ps k).isSome
    · rw [lookupPath_setPath_self ps k pa1 hs] at h
      injection h with h'
      exact Or.inl ⟨rfl, h'.symm⟩
    · rw [setPath_of_absent ps k pa1 (Option.not_isSome_iff_eq_none.mp hs)] at h
      exact Or.inr h
  · rw [lookupPath_setPath_ne ps proc pa1 k hk] at h
    exact Or.inr h

theorem nodesCover_setPath_end (ps : Paths) (proc : ProcId) (pa1 : DPath)
    (hend : pa1.endLine ≠ -1) (nodes : List DNode)
    (h : NodesCover ps nodes) : NodesCover (setPath ps proc pa1) nodes := by
  intro k pa hl hE
  rcases lookup_setPath_back ps proc pa1 k pa hl with ⟨hk, hpe⟩ | hl2
  · exact absurd (hpe ▸ hE) hend
  · exact h k pa hl2 hE

theorem nodesCover_step_append (ps : Paths) (curLine rest : List DNode)
    (prevNode : DNode) (w : DNode) (hw : w.proc = prevNode.proc)
    (h : NodesCover ps (curLine ++ prevNode :: rest)) :
    NodesCover ps ((curLine ++ [w]) ++ rest) := by
  intro k pa hl hend
  obtain ⟨n, hn, hp⟩ := h k pa hl hend
  rcases List.mem_append.mp hn with h1 | h1
  · exact ⟨n, List.mem_append_left _ (List.mem_append_left _ h1), hp⟩
  · rcases List.mem_cons.mp h1 with h2 | h2
    · refine ⟨w, List.mem_append_left _ (List.mem_append_right _ (List.mem_cons_self _ _)), ?_⟩
      rw [hw, ← h2]
      exact hp
    · exact ⟨n, List.mem_append_right _ h2, hp⟩

theorem nodesCover_step_drop (ps : Paths) (curLine rest : List DNode)
    (prevNode : DNode)
    (hnp : ∀ pa, lookupPath ps prevNode.proc = some pa → pa.endLine ≠ -1)
    (h : NodesCover ps (curLine ++ prevNode :: rest)) :
    NodesCover ps (curLine ++ rest) := by
  intro k pa hl hend
  obtain ⟨n, hn, hp⟩ := h k pa hl hend
  rcases List.mem_append.mp hn with h1 | h1
  · exact ⟨n, List.mem_append_left _ h1, hp⟩
  · rcases List.mem_cons.mp h1 with h2 | h2
    · exfalso
      have hk : k = prevNode.proc := by rw [← hp, h2]
      rw [hk] at hl
      exact hnp pa hl hend
    · exact ⟨n, List.mem_append_right _ h2, hp⟩

theorem nodesCover_do_link (pathsU paths' : Paths) (curLine curLine' rest : List DNode)
    (prevNode : DNode)
    (hsub : ∀ n, n ∈ curLine → n ∈ curLine')
    (wn : DNode) (hwn : wn ∈ curLine') (hwp : wn.proc = prevNode.proc)
    (hobl : ∀ k pa', lookupPath paths' k = some pa' → pa'.endLine = -1 →
      k = prevNode.proc ∨ (∃ n, n ∈ curLine' ∧ n.proc = k) ∨
      ∃ pa, lookupPath pathsU k = some pa ∧ pa.endLine = -1)
    (hcovU : NodesCover pathsU (curLine ++ prevNode :: rest)) :
    NodesCover paths' (curLine' ++ rest) := by
  intro k pa' hl hend
  rcases hobl k pa' hl hend with hk | ⟨n, hn, hp⟩ | ⟨pa, hpa, hpaE⟩
  · exact ⟨wn, List.mem_append_left _ hwn, by rw [hwp, hk]⟩
  · exact ⟨n, List.mem_append_left _ hn, hp⟩
  · obtain ⟨n, hn, hp⟩ := hcovU k pa hpa hpaE
    rcases List.mem_append.mp hn with h1 | h1
    · exact ⟨n, List.mem_append_left _ (hsub n h1), hp⟩
    · rcases List.mem_cons.mp h1 with h2 | h2
      · refine ⟨wn, List.mem_append_left _ hwn, ?_⟩
        rw [hwp, ← h2]
        exact hp
      · exact ⟨n, List.mem_append_right _ h2, hp⟩

/-- One step of the _build_next_line loop preserves the pass-1 invariant
and keeps every unfinished path covered by a node on the line under
construction or on the unprocessed remainder of the previous line. -/
theorem build_step_inv (arena : Arena) (opts : DOptions) (leader : ProcId)
    (prevLine : List DNode) (lineNum : Int) (acc : RoundAcc) (prevNode : DNode)
    (acc' : RoundAcc) (rest : List DNode)
    (h : build_step arena opts leader prevLine lineNum acc prevNode = some acc')
    (hL : 0 ≤ lineNum)
    (hinv : PathsInv arena leader lineNum acc.paths)
    (hcov : NodesCover acc.paths (acc.curLine ++ prevNode :: rest)) :
    PathsInv arena leader lineNum acc'.paths ∧
    NodesCover acc'.paths (acc'.curLine ++ rest) := by
  rw [build_step] at h
  cases hl0 : lookupPath acc.paths prevNode.proc with
  | none =>
    simp only [hl0] at h
    exact Option.noConfusion h
  | some path0 =>
    simp only [hl0] at h
    obtain ⟨⟨b0, b1, b2, b4⟩, hr0⟩ := hinv prevNode.proc path0 hl0
    by_cases hc : ((prevNode.proc = leader ∧ node_next_event arena prevNode = none) ∨
        node_end_of_path arena prevNode = true) ∧ path0.endLine = -1
    · rw [if_pos hc] at h
      have hlU : lookupPath (setPath acc.paths prevNode.proc
          { path0 with endLine := max (lineNum - 1) path0.startLine }) prevNode.proc
          = some { path0 with endLine := max (lineNum - 1) path0.startLine } :=
        lookupPath_setPath_self _ _ _ (by rw [hl0]; rfl)
      have hend1 : ({ path0 with endLine := max (lineNum - 1) path0.startLine }
          : DPath).endLine ≠ -1 := by
        show max (lineNum - 1) path0.startLine ≠ -1
        have h0 : (0 : Int) ≤ max (lineNum - 1) path0.startLine :=
          le_trans b0 (le_max_right _ _)
        omega
      have hinvU : PathsInv arena leader lineNum (setPath acc.paths prevNode.proc
          { path0 with endLine := max (lineNum - 1) path0.startLine }) := by
        intro k pa hl
        rcases lookup_setPath_back _ _ _ k pa hl with ⟨hk, hpe⟩ | hl2
        · subst hk
          subst hpe
          exact ⟨⟨b0, b1, b2, Or.inr ⟨le_max_right _ _,
            max_le (by omega) b1⟩⟩, hr0⟩
        · exact hinv k pa hl2
      have hcovU : NodesCover (setPath acc.paths prevNode.proc
          { path0 with endLine := max (lineNum - 1) path0.startLine })
          (acc.curLine ++ prevNode :: rest) :=
        nodesCover_setPath_end _ _ _ hend1 _ hcov
      cases hevt : node_next_event arena prevNode with
      | none =>
        simp only [hevt] at h
        simp only [hlU, Option.getD_some] at h
        by_cases hp : ({ path0 with endLine := max (lineNum - 1) path0.startLine }
            : DPath).endLine = -1 ∨
            ({ path0 with endLine := max (lineNum - 1) path0.startLine }
            : DPath).endLine ≥ lineNum
        · rw [if_pos hp] at h
          injection h with h'
          subst h'
          exact ⟨hinvU, nodesCover_step_append _ acc.curLine rest prevNode (continue_path prevNode) rfl hcovU⟩
        · rw [if_neg hp] at h
          injection h with h'
          subst h'
          refine ⟨hinvU, nodesCover_step_drop _ _ _ _ ?_ hcovU⟩
          intro pa hpa
          rw [hlU] at hpa
          injection hpa with hpa'
          subst hpa'
          exact hend1
      | some ev =>
        simp only [hevt] at h
        by_cases hlnk : ev.isLink = true
        · rw [if_pos hlnk] at h
          by_cases hee : (if acc.eventEnd = some prevNode.proc then none
              else acc.eventEnd).isSome = true
          · rw [if_pos hee] at h
            injection h with h'
            subst h'
            exact ⟨hinvU, nodesCover_step_append _ acc.curLine rest prevNode (continue_path prevNode) rfl hcovU⟩
          · rw [if_neg hee] at h
            cases hdl : do_link_event arena opts prevLine lineNum
                (setPath acc.paths prevNode.proc
                  { path0 with endLine := max (lineNum - 1) path0.startLine })
                acc.curLine prevNode ev with
            | none =>
              simp only [hdl] at h
              exact Option.noConfusion h
            | some tr =>
              obtain ⟨paths', curLine', e⟩ := tr
              simp only [hdl] at h
              injection h with h'
              subst h'
              have hevfork : ∀ c, ev = DEvent.fork c →
                  ∃ dp, arena.get? prevNode.proc = some dp ∧
                    DEvent.fork c ∈ dp.events := by
                intro c hc2
                subst hc2
                exact node_next_event_some arena prevNode _ hevt
              obtain ⟨hinv2, hsub, ⟨wn, hwn, hwp⟩, hobl⟩ :=
                do_link_event_inv arena opts leader prevLine lineNum _ acc.curLine
                  prevNode ev paths' curLine' e hdl hL hinvU hevfork (by rw [hlU]; rfl)
              exact ⟨hinv2, nodesCover_do_link _ paths' acc.curLine curLine' rest
                prevNode hsub wn hwn hwp hobl hcovU⟩
        · rw [if_neg hlnk] at h
          cases hgs : get_successor arena opts
              (setPath acc.paths prevNode.proc
                { path0 with endLine := max (lineNum - 1) path0.startLine })
              prevNode with
          | none =>
            simp only [hgs] at h
            exact Option.noConfusion h
          | some pr =>
            obtain ⟨paths', succ⟩ := pr
            simp only [hgs] at h
            injection h with h'
            subst h'
            have hsh := get_successor_shape arena opts _ prevNode paths' succ hgs
            exact ⟨pathsInv_shapeEq _ _ _ _ _ hsh.1 hinvU,
              nodesCover_step_append _ acc.curLine rest prevNode succ hsh.2
                (nodesCover_shapeEq _ _ _ hsh.1 hcovU)⟩
    · rw [if_neg hc] at h
      cases hevt : node_next_event arena prevNode with
      | none =>
        simp only [hevt] at h
        simp only [hl0, Option.getD_some] at h
        by_cases hp : path0.endLine = -1 ∨ path0.endLine ≥ lineNum
        · rw [if_pos hp] at h
          injection h with h'
          subst h'
          exact ⟨hinv, nodesCover_step_append _ acc.curLine rest prevNode (continue_path prevNode) rfl hcov⟩
        · rw [if_neg hp] at h
          injection h with h'
          subst h'
          refine ⟨hinv, nodesCover_step_drop _ _ _ _ ?_ hcov⟩
          intro pa hpa
          rw [hl0] at hpa
          injection hpa with hpa'
          subst hpa'
          intro hE
          exact hp (Or.inl hE)
      | some ev =>
        simp only [hevt] at h
        by_cases hlnk : ev.isLink = true
        · rw [if_pos hlnk] at h
          by_cases hee : (if acc.eventEnd = some prevNode.proc then none
              else acc.eventEnd).isSome = true
          · rw [if_pos hee] at h
            injection h with h'
            subst h'
            exact ⟨hinv, nodesCover_step_append _ acc.curLine rest prevNode (continue_path prevNode) rfl hcov⟩
          · rw [if_neg hee] at h
            cases hdl : do_link_event arena opts prevLine lineNum acc.paths
                acc.curLine prevNode ev with
            | none =>
              simp only [hdl] at h
              exact Option.noConfusion h
            | some tr =>
              obtain ⟨paths', curLine', e⟩ := tr
              simp only [hdl] at h
              injection h with h'
              subst h'
              have hevfork : ∀ c, ev = DEvent.fork c →
                  ∃ dp, arena.get? prevNode.proc = some dp ∧
                    DEvent.fork c ∈ dp.events := by
                intro c hc2
                subst hc2
                exact node_next_event_some arena prevNode _ hevt
              obtain ⟨hinv2, hsub, ⟨wn, hwn, hwp⟩, hobl⟩ :=
                do_link_event_inv arena opts leader prevLine lineNum acc.paths
                  acc.curLine prevNode ev paths' curLine' e hdl hL hinv hevfork
                  (by rw [hl0]; rfl)
              exact ⟨hinv2, nodesCover_do_link acc.paths paths' acc.curLine curLine'
                rest prevNode hsub wn hwn hwp hobl hcov⟩
        · rw [if_neg hlnk] at h
          cases hgs : get_successor arena opts acc.paths prevNode with
          | none =>
            simp only [hgs] at h
            exact Option.noConfusion h
          | some pr =>
            obtain ⟨paths', succ⟩ := pr
            simp only [hgs] at h
            injection h with h'
            subst h'
            have hsh := get_successor_shape arena opts acc.paths prevNode paths' succ hgs
            exact ⟨pathsInv_shapeEq _ _ _ _ _ hsh.1 hinv,
              nodesCover_step_append _ acc.curLine rest prevNode succ hsh.2
                (nodesCover_shapeEq _ _ _ hsh.1 hcov)⟩

/-- The loop of _build_next_line preserves the pass-1 invariant; at the end
every unfinished path has a node on the newly built line. -/
theorem build_fold_inv (arena : Arena) (opts : DOptions) (leader : ProcId)
    (prevLine : List DNode) (lineNum : Int) :
    ∀ remaining acc acc',
      build_fold arena opts leader prevLine lineNum acc remaining = some acc' →
      0 ≤ lineNum →
      PathsInv arena leader lineNum acc.paths →
      NodesCover acc.paths (acc.curLine ++ remaining) →
      PathsInv arena leader lineNum acc'.paths ∧
      NodesCover acc'.paths acc'.curLine := by
  intro remaining
  induction remaining with
  | nil =>
    intro acc acc' h hL hinv hcov
    rw [build_fold] at h
    injection h with h'
    subst h'
    rw [List.append_nil] at hcov
    exact ⟨hinv, hcov⟩
  | cons n rest ih =>
    intro acc acc' h hL hinv hcov
    rw [build_fold] at h
    cases hs : build_step arena opts leader prevLine lineNum acc n with
    | none =>
      simp only [hs] at h
      exact Option.noConfusion h
    | some acc1 =>
      simp only [hs] at h
      obtain ⟨hinv1, hcov1⟩ :=
        build_step_inv arena opts leader prevLine lineNum acc n acc1 rest hs hL hinv hcov
      exact ih acc1 acc' h hL hinv1 hcov1

/-- Diagram::_build_next_line preserves the pass-1 invariant; when it
reports that no line was added, every path's end line is set. -/
theorem build_next_line_inv (arena : Arena) (opts : DOptions) (leader : ProcId)
    (st st' : BuildState) (app : Bool)
    (h : build_next_line arena opts leader st = some (st', app))
    (hinv : PathsInv arena leader (st.lines.length : Int) st.paths)
    (hcov : NodesCover st.paths (st.lines.getLast?.getD [])) :
    PathsInv arena leader (st'.lines.length : Int) st'.paths ∧
    NodesCover st'.paths (st'.lines.getLast?.getD []) ∧
    (app = false → ∀ k pa, lookupPath st'.paths k = some pa → pa.endLine ≠ -1) := by
  rw [build_next_line] at h
  cases hlast : st.lines.getLast? with
  | none =>
    simp only [hlast] at h
    exact Option.noConfusion h
  | some prevLine =>
    simp only [hlast] at h
    cases hf : build_fold arena opts leader prevLine (st.lines.length : Int)
        ⟨st.paths, [], none⟩ prevLine with
    | none =>
      simp only [hf] at h
      exact Option.noConfusion h
    | some acc =>
      simp only [hf] at h
      have hcov0 : NodesCover st.paths (([] : List DNode) ++ prevLine) := by
        rw [List.nil_append]
        rw [hlast] at hcov
        exact hcov
      obtain ⟨hinvA, hcovA⟩ := build_fold_inv arena opts leader prevLine
        (st.lines.length : Int) prevLine ⟨st.paths, [], none⟩ acc hf
        (Int.natCast_nonneg _) hinv hcov0
      by_cases hemp : acc.curLine.isEmpty = true
      · rw [if_pos hemp] at h
        injection h with h'
        injection h' with h1 h2
        subst h1
        subst h2
        have hnil : acc.curLine = [] := List.isEmpty_iff.mp hemp
        have hdone : ∀ k pa, lookupPath acc.paths k = some pa → pa.endLine ≠ -1 := by
          intro k pa hl hE
          obtain ⟨n, hn, _⟩ := hcovA k pa hl hE
          rw [hnil] at hn
          exact absurd hn (List.not_mem_nil n)
        refine ⟨hinvA, ?_, fun _ => hdone⟩
        intro k pa hl hE
        exact absurd hE (hdone k pa hl)
      · rw [if_neg hemp] at h
        injection h with h'
        injection h' with h1 h2
        subst h1
        subst h2
        have hlen : ((st.lines ++ [acc.curLine]).length : Int)
            = (st.lines.length : Int) + 1 := by
          rw [List.length_append]
          simp
        refine ⟨?_, ?_, ?_⟩
        · show PathsInv arena leader (((st.lines ++ [acc.curLine]).length : Nat) : Int)
            acc.paths
          rw [hlen]
          exact pathsInv_mono arena leader _ _ acc.paths (by omega) hinvA
        · show NodesCover acc.paths ((st.lines ++ [acc.curLine]).getLast?.getD [])
          rw [List.getLast?_concat]
          exact hcovA
        · intro hfalse
          exact absurd hfalse (by simp)

/-- The line-construction loop preserves the pass-1 invariant and, on
settlement, leaves every path's end line set. -/
theorem build_lines_inv (arena : Arena) (opts : DOptions) (leader : ProcId) :
    ∀ fuel st st',
      build_lines arena opts leader fuel st = some st' →
      PathsInv arena leader (st.lines.length : Int) st.paths →
      NodesCover st.paths (st.lines.getLast?.getD []) →
      PathsInv arena leader (st'.lines.length : Int) st'.paths ∧
      ∀ k pa, lookupPath st'.paths k = some pa → pa.endLine ≠ -1 := by
  intro fuel
  induction fuel with
  | zero =>
    intro st st' h hinv hcov
    rw [build_lines] at h
    exact Option.noConfusion h
  | succ n ih =>
    intro st st' h hinv hcov
    rw [build_lines] at h
    cases hb : build_next_line arena opts leader st with
    | none =>
      simp only [hb] at h
      exact Option.noConfusion h
    | some pr =>
      obtain ⟨st1, more⟩ := pr
      simp only [hb] at h
      obtain ⟨hinv1, hcov1, hdone1⟩ := build_next_line_inv arena opts leader st st1
        more hb hinv hcov
      cases more with
      | true =>
        rw [if_pos rfl] at h
        exact ih st1 st' h hinv1 hcov1
      | false =>
        rw [if_neg (by simp : ¬(false = true))] at h
        injection h with h'
        subst h'
        exact ⟨hinv1, hdone1 rfl⟩

/-! ### Pass-2 invariants of the lane-allocation pass -/

theorem getD_set_self {α : Type} (d : α) :
    ∀ (l : List α) (i : Nat) (v : α), i < l.length → (l.set i v).getD i d = v := by
  intro l
  induction l with
  | nil =>
    intro i v hi
    exact absurd hi (by simp)
  | cons a t ih =>
    intro i v hi
    cases i with
    | zero => rfl
    | succ j =>
      rw [List.length_cons] at hi
      exact ih j v (Nat.lt_of_succ_lt_succ hi)

theorem getD_set_ne {α : Type} (d : α) :
    ∀ (l : List α) (i j : Nat) (v : α), j ≠ i → (l.set i v).getD j d = l.getD j d := by
  intro l
  induction l with
  | nil =>
    intro i j v hj
    rfl
  | cons a t ih =>
    intro i j v hj
    cases i with
    | zero =>
      cases j with
      | zero => exact absurd rfl hj
      | succ j2 => rfl
    | succ i2 =>
      cases j with
      | zero => rfl
      | succ j2 => exact ih i2 j2 v (fun hh => hj (by rw [hh]))

theorem getD_append_lt {α : Type} (d : α) :
    ∀ (l l2 : List α) (j : Nat), j < l.length → (l ++ l2).getD j d = l.getD j d := by
  intro l
  induction l with
  | nil =>
    intro l2 j hj
    exact absurd hj (by simp)
  | cons a t ih =>
    intro l2 j hj
    cases j with
    | zero => rfl
    | succ j2 =>
      rw [List.length_cons] at hj
      exact ih l2 j2 (Nat.lt_of_succ_lt_succ hj)

theorem getD_concat_self {α : Type} (d : α) :
    ∀ (l : List α) (x : α), (l ++ [x]).getD l.length d = x := by
  intro l
  induction l with
  | nil => intro x; rfl
  | cons a t ih => intro x; exact ih x

theorem getD_ge {α : Type} (d : α) :
    ∀ (l : List α) (j : Nat), l.length ≤ j → l.getD j d = d := by
  intro l
  induction l with
  | nil => intro j hj; cases j <;> rfl
  | cons a t ih =>
    intro j hj
    cases j with
    | zero => exact absurd hj (by simp)
    | succ j2 =>
      rw [List.length_cons] at hj
      exact ih j2 (Nat.le_of_succ_le_succ hj)

theorem set_concat_self {α : Type} :
    ∀ (l : List α) (x v : α), (l ++ [x]).set l.length v = l ++ [v] := by
  intro l
  induction l with
  | nil => intro x v; rfl
  | cons a t ih =>
    intro x v
    rw [List.cons_append, List.cons_append, List.length_cons, List.set_cons_succ, ih]

/-- No process already in the lane overlaps the candidate path. -/
theorem lane_collides_false_elim (paths : Paths) (my : DPath) (lane : List ProcId)
    (h : lane_collides paths my lane = false) (q : ProcId) (hq : q ∈ lane)
    (pb : DPath) (hpb : lookupPath paths q = some pb) :
    ¬(my.endLine ≥ pb.startLine ∧ my.startLine ≤ pb.endLine) := by
  rw [lane_collides, List.any_eq_false] at h
  have h2 := h q hq
  simp only [hpb, decide_eq_true_eq] at h2
  exact h2

/-- Below the first colliding lane found by the downward scan there is no
collision (the scan starts at the top lane and moves down). -/
theorem scan_lanes_from_none (paths : Paths) (my : DPath)
    (lanes : List (List ProcId)) :
    ∀ start, scan_lanes_from paths my lanes start = none →
      ∀ j, j ≤ start → lane_collides paths my (lanes.getD j []) = false := by
  intro start
  induction start with
  | zero =>
    intro h j hj
    rw [scan_lanes_from] at h
    by_cases hcl : lane_collides paths my (lanes.getD 0 []) = true
    · rw [if_pos hcl] at h
      exact Option.noConfusion h
    · rw [Nat.le_zero.mp hj]
      exact Bool.eq_false_iff.mpr hcl
  | succ i ih =>
    intro h j hj
    rw [scan_lanes_from] at h
    by_cases hcl : lane_collides paths my (lanes.getD (i + 1) []) = true
    · rw [if_pos hcl] at h
      exact Option.noConfusion h
    · rw [if_neg hcl] at h
      rcases Nat.eq_or_lt_of_le hj with he | hlt
      · rw [he]
        exact Bool.eq_false_iff.mpr hcl
      · exact ih h j (Nat.lt_succ_iff.mp hlt)

theorem scan_lanes_from_some (paths : Paths) (my : DPath)
    (lanes : List (List ProcId)) :
    ∀ start i, scan_lanes_from paths my lanes start = some i →
      i ≤ start ∧ ∀ j, i < j → j ≤ start →
        lane_collides paths my (lanes.getD j []) = false := by
  intro start
  induction start with
  | zero =>
    intro i h
    rw [scan_lanes_from] at h
    by_cases hcl : lane_collides paths my (lanes.getD 0 []) = true
    · rw [if_pos hcl] at h
      injection h with h'
      subst h'
      exact ⟨le_refl _, fun j hj1 hj2 => absurd (lt_of_lt_of_le hj1 hj2) (by omega)⟩
    · rw [if_neg hcl] at h
      exact Option.noConfusion h
  | succ s ih =>
    intro i h
    rw [scan_lanes_from] at h
    by_cases hcl : lane_collides paths my (lanes.getD (s + 1) []) = true
    · rw [if_pos hcl] at h
      injection h with h'
      subst h'
      exact ⟨le_refl _, fun j hj1 hj2 => absurd (lt_of_lt_of_le hj1 hj2) (by omega)⟩
    · rw [if_neg hcl] at h
      obtain ⟨h1, h2⟩ := ih i h
      refine ⟨Nat.le_succ_of_le h1, fun j hj1 hj2 => ?_⟩
      rcases Nat.eq_or_lt_of_le hj2 with he | hlt
      · rw [he]
        exact Bool.eq_false_iff.mpr hcl
      · exact h2 j hj1 (Nat.lt_succ_iff.mp hlt)

/-- The invariant of the lane lists: every assigned lane number points to
a lane that lists the process, and no two distinct processes in one lane
have overlapping line intervals. -/
def LaneInv (paths : Paths) (lanes : List (List ProcId)) : Prop :=
  (∀ k pa, lookupPath paths k = some pa → 0 ≤ pa.lane →
    pa.lane.toNat < lanes.length ∧ k ∈ lanes.getD pa.lane.toNat []) ∧
  (∀ i p q, p ∈ lanes.getD i [] → q ∈ lanes.getD i [] → p ≠ q →
    ∀ pap paq, lookupPath paths p = some pap → lookupPath paths q = some paq →
      ¬(pap.endLine ≥ paq.startLine ∧ pap.startLine ≤ paq.endLine))

/-- Dropping a path into an existing lane with no collision preserves the
lane invariant. -/
theorem place_core (paths : Paths) (lanes : List (List ProcId)) (proc : ProcId)
    (myPath : DPath) (t : Nat)
    (hm : lookupPath paths proc = some myPath)
    (ht : t < lanes.length)
    (hcol : lane_collides paths myPath (lanes.getD t []) = false)
    (hinv : LaneInv paths lanes) :
    LaneInv (setPath paths proc { myPath with lane := (t : Int) })
      (appendLane lanes t proc) := by
  have hlen : (appendLane lanes t proc).length = lanes.length := by
    rw [appendLane, List.length_set]
  have hgt : (appendLane lanes t proc).getD t [] = lanes.getD t [] ++ [proc] := by
    rw [appendLane]
    exact getD_set_self [] lanes t _ ht
  have hgo : ∀ j, j ≠ t → (appendLane lanes t proc).getD j [] = lanes.getD j [] := by
    intro j hj
    rw [appendLane]
    exact getD_set_ne [] lanes t j _ hj
  have hback : ∀ k pa', lookupPath (setPath paths proc
      { myPath with lane := (t : Int) }) k = some pa' →
      (k = proc ∧ pa' = { myPath with lane := (t : Int) }) ∨
        lookupPath paths k = some pa' :=
    fun k pa' hl => lookup_setPath_back paths proc _ k pa' hl
  constructor
  · intro k pa' hl hge
    rcases hback k pa' hl with ⟨hk, hpe⟩ | hl2
    · subst hpe
      have hlane : ({ myPath with lane := (t : Int) } : DPath).lane.toNat = t :=
        Int.toNat_natCast t
      refine ⟨?_, ?_⟩
      · rw [hlane, hlen]
        exact ht
      · rw [hlane, hgt, hk]
        exact List.mem_append_right _ (List.mem_singleton.mpr rfl)
    · obtain ⟨h1, h2⟩ := hinv.1 k pa' hl2 hge
      refine ⟨by rw [hlen]; exact h1, ?_⟩
      by_cases hjt : pa'.lane.toNat = t
      · rw [hjt, hgt]
        exact List.mem_append_left _ (hjt ▸ h2)
      · rw [hgo _ hjt]
        exact h2
  · intro i p q hp hq hpq pap paq hlp hlq
    have hp3 : ∃ pa0, lookupPath paths p = some pa0 ∧
        pap.startLine = pa0.startLine ∧ pap.endLine = pa0.endLine := by
      rcases hback p pap hlp with ⟨hk, hpe⟩ | hp2
      · exact ⟨myPath, by rw [hk]; exact hm, by rw [hpe], by rw [hpe]⟩
      · exact ⟨pap, hp2, rfl, rfl⟩
    have hq3 : ∃ pa0, lookupPath paths q = some pa0 ∧
        paq.startLine = pa0.startLine ∧ paq.endLine = pa0.endLine := by
      rcases hback q paq hlq with ⟨hk, hpe⟩ | hq2
      · exact ⟨myPath, by rw [hk]; exact hm, by rw [hpe], by rw [hpe]⟩
      · exact ⟨paq, hq2, rfl, rfl⟩
    obtain ⟨p0, hp0, hps, hpe⟩ := hp3
    obtain ⟨q0, hq0, hqs, hqe⟩ := hq3
    rw [hps, hpe, hqs, hqe]
    by_cases hit : i = t
    · subst hit
      rw [hgt] at hp hq
      rcases List.mem_append.mp hp with hp1 | hp1
      · rcases List.mem_append.mp hq with hq1 | hq1
        · exact hinv.2 i p q hp1 hq1 hpq p0 q0 hp0 hq0
        · have hqp : q = proc := List.mem_singleton.mp hq1
          have hq0m : q0 = myPath := by
            rw [hqp, hm] at hq0
            injection hq0 with h'
            exact h'.symm
          rw [hq0m]
          intro hov
          exact lane_collides_false_elim paths myPath _ hcol p hp1 p0 hp0
            ⟨hov.2, hov.1⟩
      · have hpp : p = proc := List.mem_singleton.mp hp1
        have hp0m : p0 = myPath := by
          rw [hpp, hm] at hp0
          injection hp0 with h'
          exact h'.symm
        rw [hp0m]
        rcases List.mem_append.mp hq with hq1 | hq1
        · exact lane_collides_false_elim paths myPath _ hcol q hq1 q0 hq0
        · exact absurd (hpp.trans (List.mem_singleton.mp hq1).symm) hpq
    · rw [hgo _ hit] at hp hq
      exact hinv.2 i p q hp hq hpq p0 q0 hp0 hq0

/-- Opening a fresh top lane for a path preserves the lane invariant. -/
theorem place_core_fresh (paths : Paths) (lanes : List (List ProcId)) (proc : ProcId)
    (myPath : DPath)
    (hm : lookupPath paths proc = some myPath)
    (hinv : LaneInv paths lanes) :
    LaneInv (setPath paths proc { myPath with lane := (lanes.length : Int) })
      (lanes ++ [[proc]]) := by
  have hback : ∀ k pa', lookupPath (setPath paths proc
      { myPath with lane := (lanes.length : Int) }) k = some pa' →
      (k = proc ∧ pa' = { myPath with lane := (lanes.length : Int) }) ∨
        lookupPath paths k = some pa' :=
    fun k pa' hl => lookup_setPath_back paths proc _ k pa' hl
  constructor
  · intro k pa' hl hge
    rcases hback k pa' hl with ⟨hk, hpe⟩ | hl2
    · subst hpe
      have hlane : ({ myPath with lane := (lanes.length : Int) } : DPath).lane.toNat
          = lanes.length := Int.toNat_natCast lanes.length
      refine ⟨?_, ?_⟩
      · rw [hlane, List.length_append]
        simp
      · rw [hlane, getD_concat_self, hk]
        exact List.mem_singleton.mpr rfl
    · obtain ⟨h1, h2⟩ := hinv.1 k pa' hl2 hge
      refine ⟨by rw [List.length_append]; omega, ?_⟩
      rw [getD_append_lt [] lanes [[proc]] _ h1]
      exact h2
  · intro i p q hp hq hpq pap paq hlp hlq
    have hp3 : ∃ pa0, lookupPath paths p = some pa0 ∧
        pap.startLine = pa0.startLine ∧ pap.endLine = pa0.endLine := by
      rcases hback p pap hlp with ⟨hk, hpe⟩ | hp2
      · exact ⟨myPath, by rw [hk]; exact hm, by rw [hpe], by rw [hpe]⟩
      · exact ⟨pap, hp2, rfl, rfl⟩
    have hq3 : ∃ pa0, lookupPath paths q = some pa0 ∧
        paq.startLine = pa0.startLine ∧ paq.endLine = pa0.endLine := by
      rcases hback q paq hlq with ⟨hk, hpe⟩ | hq2
      · exact ⟨myPath, by rw [hk]; exact hm, by rw [hpe], by rw [hpe]⟩
      · exact ⟨paq, hq2, rfl, rfl⟩
    obtain ⟨p0, hp0, hps, hpe⟩ := hp3
    obtain ⟨q0, hq0, hqs, hqe⟩ := hq3
    rw [hps, hpe, hqs, hqe]
    rcases Nat.lt_trichotomy i lanes.length with hi | hi | hi
    · rw [getD_append_lt [] lanes [[proc]] _ hi] at hp hq
      exact hinv.2 i p q hp hq hpq p0 q0 hp0 hq0
    · subst hi
      rw [getD_concat_self] at hp hq
      exact absurd ((List.mem_singleton.mp hp).trans
        (List.mem_singleton.mp hq).symm) hpq
    · rw [getD_ge [] (lanes ++ [[proc]]) i
        (by rw [List.length_append]; simpa using hi)] at hp
      exact absurd hp (List.not_mem_nil p)

/-- The placement step of _allocate_process_to_lane: preserves the lane
invariant, never changes a path's line interval, never lowers an assigned
lane below zero, and leaves the placed process with a lane ≥ 0. -/
theorem place_path_inv (paths : Paths) (lanes : List (List ProcId)) (proc : ProcId)
    (paths' : Paths) (lanes' : List (List ProcId))
    (h : place_path paths lanes proc = some (paths', lanes'))
    (hinv : LaneInv paths lanes) :
    LaneInv paths' lanes' ∧
    (∀ k pa', lookupPath paths' k = some pa' → ∃ pa, lookupPath paths k = some pa ∧
      pa'.startLine = pa.startLine ∧ pa'.endLine = pa.endLine) ∧
    (∀ k pa, lookupPath paths k = some pa → 0 ≤ pa.lane →
      ∃ pa', lookupPath paths' k = some pa' ∧ 0 ≤ pa'.lane) ∧
    (∃ pa', lookupPath paths' proc = some pa' ∧ 0 ≤ pa'.lane) := by
  rw [place_path] at h
  cases hm : lookupPath paths proc with
  | none =>
    simp only [hm] at h
    exact Option.noConfusion h
  | some myPath =>
    simp only [hm] at h
    cases hemp : lanes.isEmpty with
    | true =>
      rw [hemp] at h
      rw [if_pos rfl] at h
      exact Option.noConfusion h
    | false =>
      rw [hemp] at h
      rw [if_neg (by simp : ¬(false = true))] at h
      have hlpos : 0 < lanes.length :=
        List.length_pos.mpr (by
          intro hnil
          rw [hnil] at hemp
          exact Bool.noConfusion hemp)
      have hrest : ∀ (t : Nat), paths' = setPath paths proc
            { myPath with lane := (t : Int) } →
          (∀ k pa', lookupPath paths' k = some pa' →
            ∃ pa, lookupPath paths k = some pa ∧
              pa'.startLine = pa.startLine ∧ pa'.endLine = pa.endLine) ∧
          (∀ k pa, lookupPath paths k = some pa → 0 ≤ pa.lane →
            ∃ pa', lookupPath paths' k = some pa' ∧ 0 ≤ pa'.lane) ∧
          (∃ pa', lookupPath paths' proc = some pa' ∧ 0 ≤ pa'.lane) := by
        intro t hpe
        subst hpe
        refine ⟨?_, ?_, ?_⟩
        · intro k pa' hl
          rcases lookup_setPath_back paths proc _ k pa' hl with ⟨hk, hpe2⟩ | hl2
          · exact ⟨myPath, by rw [hk]; exact hm, by rw [hpe2], by rw [hpe2]⟩
          · exact ⟨pa', hl2, rfl, rfl⟩
        · intro k pa hl hge
          by_cases hk : k = proc
          · subst hk
            refine ⟨{ myPath with lane := (t : Int) },
              lookupPath_setPath_self paths k _ (by rw [hm]; rfl), ?_⟩
            show (0 : Int) ≤ (t : Int)
            exact Int.natCast_nonneg t
          · rw [lookupPath_setPath_ne paths proc _ k hk]
            exact ⟨pa, hl, Or.elim (Or.inl hge) id (fun h2 => h2)⟩
        · refine ⟨{ myPath with lane := (t : Int) },
            lookupPath_setPath_self paths proc _ (by rw [hm]; rfl), ?_⟩
          show (0 : Int) ≤ (t : Int)
          exact Int.natCast_nonneg t
      cases hscan : scan_lanes_from paths myPath lanes (lanes.length - 1) with
      | some i =>
        simp only [hscan] at h
        obtain ⟨hile, habove⟩ := scan_lanes_from_some paths myPath lanes _ i hscan
        by_cases hlt : i + 1 < lanes.length
        · rw [if_pos hlt] at h
          rw [show ((i : Int) + 1) = ((i + 1 : Nat) : Int) by omega] at h
          injection h with h'
          injection h' with h1 h2
          subst h1
          subst h2
          have hcol : lane_collides paths myPath (lanes.getD (i + 1) []) = false :=
            habove (i + 1) (by omega) (by omega)
          exact ⟨place_core paths lanes proc myPath (i + 1) hm hlt hcol hinv,
            hrest (i + 1) rfl⟩
        · rw [if_neg hlt] at h
          rw [show appendLane (lanes ++ [[]]) lanes.length proc = lanes ++ [[proc]] by
            rw [appendLane, getD_concat_self, List.nil_append, set_concat_self]] at h
          injection h with h'
          injection h' with h1 h2
          subst h1
          subst h2
          exact ⟨place_core_fresh paths lanes proc myPath hm hinv,
            hrest lanes.length rfl⟩
      | none =>
        simp only [hscan] at h
        rw [show (0 : Int) = ((0 : Nat) : Int) by omega] at h
        injection h with h'
        injection h' with h1 h2
        subst h1
        subst h2
        have hcol : lane_collides paths myPath (lanes.getD 0 []) = false :=
          scan_lanes_from_none paths myPath lanes _ hscan 0 (by omega)
        exact ⟨place_core paths lanes proc myPath 0 hm hlpos hcol hinv,
          hrest 0 rfl⟩

/-- Every fork event in a process's log contributes its child to the
child list used by the lane-allocation recursion. -/
theorem mem_fork_children (arena : Arena) (proc : ProcId) (children : List ProcId)
    (h : fork_children_rev arena proc = some children) (dp : DProc)
    (hdp : arena.get? proc = some dp) (c : ProcId) (hc : DEvent.fork c ∈ dp.events) :
    c ∈ children := by
  rw [fork_children_rev] at h
  simp only [hdp] at h
  injection h with h'
  subst h'
  refine List.mem_filterMap.mpr ⟨DEvent.fork c, ?_, rfl⟩
  exact List.mem_reverse.mpr hc

/-- The lane-allocation loop preserves the lane invariant and never
changes a path's line interval. -/
theorem allocate_all_inv (arena : Arena) :
    ∀ fuel stack paths lanes p2 l2,
      allocate_all arena fuel paths lanes stack = some (p2, l2) →
      LaneInv paths lanes →
      LaneInv p2 l2 ∧
      (∀ k pa', lookupPath p2 k = some pa' → ∃ pa, lookupPath paths k = some pa ∧
        pa'.startLine = pa.startLine ∧ pa'.endLine = pa.endLine) := by
  intro fuel
  induction fuel with
  | zero =>
    intro stack paths lanes p2 l2 h hinv
    cases stack with
    | nil =>
      rw [allocate_all] at h
      injection h with h'
      injection h' with h1 h2
      subst h1
      subst h2
      exact ⟨hinv, fun k pa' hl => ⟨pa', hl, rfl, rfl⟩⟩
    | cons proc rest =>
      rw [allocate_all] at h
      exact Option.noConfusion h
  | succ n ih =>
    intro stack paths lanes p2 l2 h hinv
    cases stack with
    | nil =>
      rw [allocate_all] at h
      injection h with h'
      injection h' with h1 h2
      subst h1
      subst h2
      exact ⟨hinv, fun k pa' hl => ⟨pa', hl, rfl, rfl⟩⟩
    | cons proc rest =>
      rw [allocate_all] at h
      cases hpl : place_path paths lanes proc with
      | none =>
        simp only [hpl] at h
        exact Option.noConfusion h
      | some pr =>
        obtain ⟨paths1, lanes1⟩ := pr
        simp only [hpl] at h
        cases hfc : fork_children_rev arena proc with
        | none =>
          simp only [hfc] at h
          exact Option.noConfusion h
        | some children =>
          simp only [hfc] at h
          obtain ⟨hinv1, hback1, _, _⟩ := place_path_inv paths lanes proc
            paths1 lanes1 hpl hinv
          obtain ⟨hinvF, hbackF⟩ := ih (children ++ rest) paths1 lanes1 p2 l2 h hinv1
          refine ⟨hinvF, ?_⟩
          intro k pa' hl
          obtain ⟨pa1, hpa1, hs1, he1⟩ := hbackF k pa' hl
          obtain ⟨pa, hpa, hs2, he2⟩ := hback1 k pa1 hpa1
          exact ⟨pa, hpa, hs1.trans hs2, he1.trans he2⟩

/-- The placement step alone (no invariant needed): line intervals are
unchanged, previously assigned lanes stay assigned, and the placed process
ends with a lane ≥ 0. -/
theorem place_path_forward (paths : Paths) (lanes : List (List ProcId))
    (proc : ProcId) (paths' : Paths) (lanes' : List (List ProcId))
    (h : place_path paths lanes proc = some (paths', lanes')) :
    (∀ k pa, lookupPath paths k = some pa → 0 ≤ pa.lane →
      ∃ pa', lookupPath paths' k = some pa' ∧ 0 ≤ pa'.lane) ∧
    (∃ pa', lookupPath paths' proc = some pa' ∧ 0 ≤ pa'.lane) := by
  rw [place_path] at h
  cases hm : lookupPath paths proc with
  | none =>
    simp only [hm] at h
    exact Option.noConfusion h
  | some myPath =>
    simp only [hm] at h
    cases hemp : lanes.isEmpty with
    | true =>
      rw [hemp] at h
      rw [if_pos rfl] at h
      exact Option.noConfusion h
    | false =>
      rw [hemp] at h
      rw [if_neg (by simp : ¬(false = true))] at h
      have hrest : ∀ (t : Int), 0 ≤ t → paths' = setPath paths proc
            { myPath with lane := t } →
          (∀ k pa, lookupPath paths k = some pa → 0 ≤ pa.lane →
            ∃ pa', lookupPath paths' k = some pa' ∧ 0 ≤ pa'.lane) ∧
          (∃ pa', lookupPath paths' proc = some pa' ∧ 0 ≤ pa'.lane) := by
        intro t hge hpe
        subst hpe
        constructor
        · intro k pa hl hge2
          by_cases hk : k = proc
          · subst hk
            exact ⟨{ myPath with lane := t },
              lookupPath_setPath_self paths k _ (by rw [hm]; rfl), hge⟩
          · rw [lookupPath_setPath_ne paths proc _ k hk]
            exact ⟨pa, hl, hge2⟩
        · exact ⟨{ myPath with lane := t },
            lookupPath_setPath_self paths proc _ (by rw [hm]; rfl), hge⟩
      cases hscan : scan_lanes_from paths myPath lanes (lanes.length - 1) with
      | some i =>
        simp only [hscan] at h
        by_cases hlt : i + 1 < lanes.length
        · rw [if_pos hlt] at h
          injection h with h'
          injection h' with h1 h2
          exact hrest ((i : Int) + 1) (by omega) h1.symm
        · rw [if_neg hlt] at h
          injection h with h'
          injection h' with h1 h2
          exact hrest (lanes.length : Int) (Int.natCast_nonneg _) h1.symm
      | none =>
        simp only [hscan] at h
        injection h with h'
        injection h' with h1 h2
        exact hrest 0 (by omega) h1.symm

/-- A lane once assigned stays assigned through the rest of the
lane-allocation loop. -/
theorem allocate_all_forward (arena : Arena) :
    ∀ fuel stack paths lanes p2 l2,
      allocate_all arena fuel paths lanes stack = some (p2, l2) →
      ∀ k pa, lookupPath paths k = some pa → 0 ≤ pa.lane →
        ∃ pa', lookupPath p2 k = some pa' ∧ 0 ≤ pa'.lane := by
  intro fuel
  induction fuel with
  | zero =>
    intro stack paths lanes p2 l2 h
    cases stack with
    | nil =>
      rw [allocate_all] at h
      injection h with h'
      injection h' with h1 h2
      subst h1
      exact fun k pa hl hge => ⟨pa, hl, hge⟩
    | cons proc rest =>
      rw [allocate_all] at h
      exact Option.noConfusion h
  | succ n ih =>
    intro stack paths lanes p2 l2 h
    cases stack with
    | nil =>
      rw [allocate_all] at h
      injection h with h'
      injection h' with h1 h2
      subst h1
      exact fun k pa hl hge => ⟨pa, hl, hge⟩
    | cons proc rest =>
      rw [allocate_all] at h
      cases hpl : place_path paths lanes proc with
      | none =>
        simp only [hpl] at h
        exact Option.noConfusion h
      | some pr =>
        obtain ⟨paths1, lanes1⟩ := pr
        simp only [hpl] at h
        cases hfc : fork_children_rev arena proc with
        | none =>
          simp only [hfc] at h
          exact Option.noConfusion h
        | some children =>
          simp only [hfc] at h
          intro k pa hl hge
          obtain ⟨hfwd1, _⟩ := place_path_forward paths lanes proc paths1 lanes1 hpl
          obtain ⟨pa1, hpa1, hge1⟩ := hfwd1 k pa hl hge
          exact ih (children ++ rest) paths1 lanes1 p2 l2 h k pa1 hpa1 hge1

/-- Every process fork-reachable from a member of the work stack ends the
lane-allocation loop with an assigned lane. -/
theorem allocate_all_reach (arena : Arena) :
    ∀ fuel stack paths lanes p2 l2,
      allocate_all arena fuel paths lanes stack = some (p2, l2) →
      ∀ s, s ∈ stack → ∀ q, ForkReachFrom arena s q →
        ∃ pa', lookupPath p2 q = some pa' ∧ 0 ≤ pa'.lane := by
  intro fuel
  induction fuel with
  | zero =>
    intro stack paths lanes p2 l2 h
    cases stack with
    | nil =>
      intro s hs
      exact absurd hs (List.not_mem_nil s)
    | cons proc rest =>
      rw [allocate_all] at h
      exact Option.noConfusion h
  | succ n ih =>
    intro stack paths lanes p2 l2 h
    cases stack with
    | nil =>
      intro s hs
      exact absurd hs (List.not_mem_nil s)
    | cons proc rest =>
      rw [allocate_all] at h
      cases hpl : place_path paths lanes proc with
      | none =>
        simp only [hpl] at h
        exact Option.noConfusion h
      | some pr =>
        obtain ⟨paths1, lanes1⟩ := pr
        simp only [hpl] at h
        cases hfc : fork_children_rev arena proc with
        | none =>
          simp only [hfc] at h
          exact Option.noConfusion h
        | some children =>
          simp only [hfc] at h
          intro s hs q hreach
          rcases List.mem_cons.mp hs with hsp | hsr
          · subst hsp
            cases hreach with
            | refl =>
              obtain ⟨_, pa1, hpa1, hge1⟩ :=
                place_path_forward paths lanes s paths1 lanes1 hpl
              exact allocate_all_forward arena n (children ++ rest) paths1 lanes1
                p2 l2 h s pa1 hpa1 hge1
            | head p c q dp hget hmem hr2 =>
              have hcm : c ∈ children := mem_fork_children arena s children hfc
                dp hget c hmem
              exact ih (children ++ rest) paths1 lanes1 p2 l2 h c
                (List.mem_append_left _ hcm) q hr2
          · exact ih (children ++ rest) paths1 lanes1 p2 l2 h s
              (List.mem_append_right _ hsr) q hreach

/-- At the start of lane allocation no path has a lane assigned, so the
single empty lane satisfies the lane invariant. -/
theorem laneInv_init (paths : Paths)
    (h : ∀ k pa, lookupPath paths k = some pa → pa.lane = -1) :
    LaneInv paths [[]] := by
  constructor
  · intro k pa hl hge
    rw [h k pa hl] at hge
    exact absurd hge (by omega)
  · intro i p q hp hq hpq pap paq hlp hlq
    exfalso
    have hnil : ([[]] : List (List ProcId)).getD i [] = [] := by
      cases i with
      | zero => rfl
      | succ j => rfl
    rw [hnil] at hp
    exact absurd hp (List.not_mem_nil p)

/-- C6: after the diagram is built (line construction followed by lane
packing), every process path satisfies 0 ≤ startLine ≤ endLine ≤ number of
lines, has a lane ≥ 0, and no two distinct paths whose [startLine, endLine]
intervals overlap share a lane. -/
theorem diagram_layout_invariants (arena : Arena) (opts : DOptions)
    (leader : ProcId) (buildFuel allocFuel : Nat)
    (st : BuildState) (lanes : List (List ProcId))
    (h : diagram_build arena opts leader buildFuel allocFuel = some (st, lanes)) :
    ∀ k pa, lookupPath st.paths k = some pa →
      0 ≤ pa.startLine ∧ pa.startLine ≤ pa.endLine ∧
      pa.endLine ≤ (st.lines.length : Int) ∧ 0 ≤ pa.lane ∧
      ∀ k2 pa2, lookupPath st.paths k2 = some pa2 → k2 ≠ k → pa2.lane = pa.lane →
        ¬(pa.endLine ≥ pa2.startLine ∧ pa.startLine ≤ pa2.endLine) := by
  simp only [diagram_build] at h
  cases hsp : start_path arena opts [(leader, ⟨0, -1, -1, none⟩)] leader with
  | none =>
    simp only [hsp] at h
    exact Option.noConfusion h
  | some pr =>
    obtain ⟨paths1, startN⟩ := pr
    simp only [hsp] at h
    cases hbl : build_lines arena opts leader buildFuel ⟨paths1, [[startN]]⟩ with
    | none =>
      simp only [hbl] at h
      exact Option.noConfusion h
    | some stB =>
      simp only [hbl] at h
      cases hal : allocate_all arena allocFuel stB.paths [[]] [leader] with
      | none =>
        simp only [hal] at h
        exact Option.noConfusion h
      | some pr2 =>
        obtain ⟨paths2, lanesF⟩ := pr2
        simp only [hal, Option.some.injEq, Prod.mk.injEq] at h
        obtain ⟨h1, h2⟩ := h
        subst h2
        subst h1
        have hshape0 := start_path_shape arena opts _ leader paths1 startN hsp
        have hinv0 : PathsInv arena leader ((1 : Nat) : Int)
            [(leader, ⟨0, -1, -1, none⟩)] := by
          intro k pa hl
          rw [lookupPath] at hl
          by_cases hk : leader = k
          · rw [if_pos hk] at hl
            injection hl with hl'
            subst hl'
            refine ⟨⟨le_refl 0, by norm_num, rfl, Or.inl rfl⟩, ?_⟩
            rw [← hk]
            exact ForkReachFrom.refl leader
          · rw [if_neg hk, lookupPath] at hl
            exact Option.noConfusion hl
        have hinv1 : PathsInv arena leader
            (((⟨paths1, [[startN]]⟩ : BuildState).lines.length : Nat) : Int)
            paths1 :=
          pathsInv_shapeEq arena leader _ _ paths1 hshape0.1 hinv0
        have hcov1 : NodesCover paths1
            ((⟨paths1, [[startN]]⟩ : BuildState).lines.getLast?.getD []) := by
          intro k pa hl hend
          obtain ⟨pa0, hpa0, _, _, _⟩ := shapeEq_lookup _ paths1 hshape0.1 k pa hl
          rw [lookupPath] at hpa0
          by_cases hk : leader = k
          · refine ⟨startN, List.mem_singleton.mpr rfl, ?_⟩
            rw [hshape0.2]
            exact hk
          · rw [if_neg hk, lookupPath] at hpa0
            exact Option.noConfusion hpa0
        obtain ⟨hinvB, hdoneB⟩ := build_lines_inv arena opts leader buildFuel
          ⟨paths1, [[startN]]⟩ stB hbl hinv1 hcov1
        have hlaneinit : LaneInv stB.paths [[]] :=
          laneInv_init stB.paths (fun k pa hl => ((hinvB k pa hl).1).2.2.1)
        obtain ⟨hlaneF, hbackF⟩ := allocate_all_inv arena allocFuel [leader]
          stB.paths [[]] paths2 lanesF hal hlaneinit
        intro k pa hl
        obtain ⟨paB, hpaB, hs, he⟩ := hbackF k pa hl
        obtain ⟨⟨b0, b1, b2, b4⟩, hreach⟩ := hinvB k paB hpaB
        have hneB := hdoneB k paB hpaB
        obtain ⟨hse, heL⟩ := b4.resolve_left hneB
        obtain ⟨paR, hpaR, hlaneR⟩ := allocate_all_reach arena allocFuel [leader]
          stB.paths [[]] paths2 lanesF hal leader (List.mem_singleton.mpr rfl)
          k hreach
        have hpaR2 : paR = pa := by
          rw [hl] at hpaR
          injection hpaR with h'
          exact h'.symm
        have hgepa : 0 ≤ pa.lane := by
          rw [← hpaR2]
          exact hlaneR
        refine ⟨by rw [hs]; exact b0, by rw [hs, he]; exact hse,
          by rw [he]; exact heL, hgepa, ?_⟩
        intro k2 pa2 hl2 hne hlaneEq
        have hge2 : 0 ≤ pa2.lane := by
          rw [hlaneEq]
          exact hgepa
        obtain ⟨_, hm1⟩ := hlaneF.1 k pa hl hgepa
        obtain ⟨_, hm2⟩ := hlaneF.1 k2 pa2 hl2 hge2
        rw [hlaneEq] at hm2
        exact hlaneF.2 pa.lane.toNat k k2 hm1 hm2 (fun hh => hne hh.symm)
          pa pa2 hl hl2

/-- A concrete two-process tree: the leader forks child 1, waits, reaps it
and exits; the child exits and is reaped. -/
def arenaW : Arena :=
  [⟨false, [DEvent.fork 1, DEvent.wait, DEvent.reap 1, DEvent.exited]⟩,
   ⟨true, [DEvent.exited]⟩]

/-- Options showing execs and signal sends. -/
def optsW : DOptions := ⟨true, false, false, true⟩

/-- The build state diagram_build produces for arenaW. -/
def stW : BuildState :=
  ⟨[(0, ⟨0, 4, 0, none⟩), (1, ⟨1, 3, 1, none⟩)],
   [[⟨0, none, 0⟩],
    [⟨0, some (DEvent.fork 1), 1⟩, ⟨1, none, 0⟩],
    [⟨0, some DEvent.wait, 2⟩, ⟨1, some DEvent.exited, -1⟩],
    [⟨0, some (DEvent.reap 1), 3⟩, ⟨1, none, -1⟩],
    [⟨0, some DEvent.exited, -1⟩]]⟩

/-- The lane lists diagram_build produces for arenaW. -/
def lanesW : List (List ProcId) := [[0], [1]]

/-- The child's path in stW. -/
def paW : DPath := ⟨1, 3, 1, none⟩

/-- Witness: the layout invariants hold for the child's path of the
concrete two-process diagram. -/
theorem diagram_layout_invariants_witness :
    0 ≤ paW.startLine ∧ paW.startLine ≤ paW.endLine ∧
    paW.endLine ≤ (stW.lines.length : Int) ∧ 0 ≤ paW.lane ∧
    ∀ k2 pa2, lookupPath stW.paths k2 = some pa2 → k2 ≠ 1 → pa2.lane = paW.lane →
      ¬(paW.endLine ≥ pa2.startLine ∧ paW.startLine ≤ pa2.endLine) :=
  diagram_layout_invariants arenaW optsW 0 20 20 stW lanesW rfl 1 paW rfl

end Forktrace
